import Mathlib

/-!
# Units: a verification development for `units.hpp`

`units.hpp` defines the class template `Unit<T>`: one stored value `val` of an
arithmetic type `T`, accessors, an explicit conversion to `Unit<U>`, same-type
member operators, cross-type operator templates and a stream inserter.

The operators are one-line bodies over the built-in operators of C++, so the
embedding has two layers:

* the host layer: the integer types, conversion between them, integral
  promotion, the usual arithmetic conversions and the built-in operators
  (undefined behaviour is `none`);
* the `Unit` layer: one definition per member / template of the header, each
  written from the body of the source function.

Data model of the host: `int` is 32 bits wide and `long` 64 bits (LP64), two's
complement, C++20 (the header uses concepts), so conversion to a signed type is
modular. `double` is IEEE 754 binary64 evaluated in `double` precision with
round to nearest, ties to even; its finite values are modelled by the
rationals they denote, and a result that is not finite is `none`.
-/

namespace Units

/-! ## Host layer: integer types -/

/-- The fixed-width integer types the wrapper is instantiated with. -/
inductive IntTy where
  | i8 | u8 | i16 | u16 | i32 | u32 | i64 | u64
  deriving DecidableEq, Repr

namespace IntTy

/-- Width in bits. -/
def bits : IntTy → Nat
  | i8 => 8 | u8 => 8
  | i16 => 16 | u16 => 16
  | i32 => 32 | u32 => 32
  | i64 => 64 | u64 => 64

/-- Signedness. -/
def signed : IntTy → Bool
  | i8 => true | i16 => true | i32 => true | i64 => true
  | u8 => false | u16 => false | u32 => false | u64 => false

/-- Integer conversion rank: char 1, short 2, int 3, long 4. -/
def rank : IntTy → Nat
  | i8 => 1 | u8 => 1
  | i16 => 2 | u16 => 2
  | i32 => 3 | u32 => 3
  | i64 => 4 | u64 => 4

/-- The unsigned type of the same rank. -/
def toUnsigned : IntTy → IntTy
  | i8 => u8 | u8 => u8
  | i16 => u16 | u16 => u16
  | i32 => u32 | u32 => u32
  | i64 => u64 | u64 => u64

/-- Smallest representable value. -/
def minVal (T : IntTy) : Int :=
  if T.signed then -(2 ^ (T.bits - 1)) else 0

/-- Largest representable value. -/
def maxVal (T : IntTy) : Int :=
  if T.signed then 2 ^ (T.bits - 1) - 1 else 2 ^ T.bits - 1

end IntTy

/-- The mathematical integer `x` is representable in `T`. -/
def InRange (T : IntTy) (x : Int) : Prop := T.minVal ≤ x ∧ x ≤ T.maxVal

instance (T : IntTy) (x : Int) : Decidable (InRange T x) := by
  unfold InRange; infer_instance

/-- The value of `static_cast<T>(x)` for an integer `x`: the unique value of
`T` congruent to `x` modulo `2 ^ bits`. -/
def wrap (T : IntTy) (x : Int) : Int :=
  if T.signed then (x + 2 ^ (T.bits - 1)) % 2 ^ T.bits - 2 ^ (T.bits - 1)
  else x % 2 ^ T.bits

/-- A value of the integer type `T`. -/
structure CInt (T : IntTy) where
  val : Int
  lo : T.minVal ≤ val
  hi : val ≤ T.maxVal
  deriving DecidableEq

/-- Integer conversion `static_cast<T>(x)`. -/
def CInt.ofInt (T : IntTy) (x : Int) : CInt T where
  val := wrap T x
  lo := by cases T <;> simp [wrap, IntTy.minVal, IntTy.signed, IntTy.bits] <;> omega
  hi := by cases T <;> simp [wrap, IntTy.maxVal, IntTy.signed, IntTy.bits] <;> omega

/-- Conversion of a value of type `A` to type `T`, `static_cast<T>(a)`. -/
def CInt.cast {A : IntTy} (T : IntTy) (a : CInt A) : CInt T := CInt.ofInt T a.val

/-- Integral promotion: types of rank below `int` promote to `int`, which
represents all their values. -/
def promote (T : IntTy) : IntTy := if T.rank < 3 then .i32 else T

/-- The usual arithmetic conversions: the common type of a binary operator
applied to operands of types `A` and `B`, i.e. `decltype(A() + B())`. -/
def arithTy (A B : IntTy) : IntTy :=
  let a := promote A
  let b := promote B
  if a = b then a
  else if a.signed = b.signed then (if a.rank < b.rank then b else a)
  else
    let s := if a.signed then a else b
    let u := if a.signed then b else a
    if s.rank ≤ u.rank then u
    else if u.maxVal ≤ s.maxVal then s
    else s.toUnsigned

/-- The five binary arithmetic operators of the header. -/
inductive Op where
  | add | sub | mul | div | mod
  deriving DecidableEq, Repr

/-- The mathematical result of an operator on integers; `/` truncates toward
zero and `%` is the matching remainder. -/
def Op.exact : Op → Int → Int → Int
  | .add, x, y => x + y
  | .sub, x, y => x - y
  | .mul, x, y => x * y
  | .div, x, y => Int.tdiv x y
  | .mod, x, y => Int.tmod x y

/-- The operator divides: a zero right operand is undefined. -/
def Op.divides : Op → Bool
  | .div => true
  | .mod => true
  | _ => false

/-- The quantity that must be representable for a signed operation to be
defined: the result itself, and for `%` the quotient `x / y`. -/
def Op.mustFit : Op → Int → Int → Int
  | .mod, x, y => Int.tdiv x y
  | op, x, y => op.exact x y

/-- A built-in operator on two operands already of the type `R` in which the
operation is carried out. Division by zero and signed overflow are undefined
(`none`); unsigned arithmetic is modulo `2 ^ bits`. -/
def evalIn (R : IntTy) (op : Op) (x y : CInt R) : Option (CInt R) :=
  if op.divides ∧ y.val = 0 then none
  else if R.signed then
    if InRange R (op.mustFit x.val y.val) then some (CInt.ofInt R (op.exact x.val y.val))
    else none
  else some (CInt.ofInt R (op.exact x.val y.val))

/-- The bare expression `a op b` for `a : A`, `b : B`: both operands are
converted to the common type, in which the operator is applied. -/
def hostOp {A B : IntTy} (op : Op) (a : CInt A) (b : CInt B) : Option (CInt (arithTy A B)) :=
  evalIn (arithTy A B) op (CInt.cast (arithTy A B) a) (CInt.cast (arithTy A B) b)

/-- The six comparison operators of the header. -/
inductive Rel where
  | eq | ne | lt | gt | le | ge
  deriving DecidableEq, Repr

/-- The mathematical comparison of two integers. -/
def Rel.holds : Rel → Int → Int → Bool
  | .eq, x, y => decide (x = y)
  | .ne, x, y => decide (x ≠ y)
  | .lt, x, y => decide (x < y)
  | .gt, x, y => decide (x > y)
  | .le, x, y => decide (x ≤ y)
  | .ge, x, y => decide (x ≥ y)

/-- The bare expression `a rel b` for `a : A`, `b : B`: both operands are
converted to the common type and compared there. -/
def hostRel {A B : IntTy} (rel : Rel) (a : CInt A) (b : CInt B) : Bool :=
  rel.holds (CInt.cast (arithTy A B) a).val (CInt.cast (arithTy A B) b).val

/-! ## Host layer: finite `double` values -/

/-- A finite value of type `double`, given by the rational number it denotes.
Every finite `double` is a rational; NaN and the infinities are not modelled.
Conversions and comparisons are exact on these values; the arithmetic
operators round their exact result with `Float64.round`. -/
structure Float64 where
  val : ℚ

/-- The integer part of a `double`, the fractional part discarded. -/
def Float64.trunc (x : Float64) : Int := Int.tdiv x.val.num x.val.den

/-- Floating-integral conversion `static_cast<T>(x)`: the fractional part is
discarded; undefined (`none`) when the result is not representable in `T`. -/
def Float64.toInt (T : IntTy) (x : Float64) : Option (CInt T) :=
  if h : InRange T x.trunc then some ⟨x.trunc, h.1, h.2⟩ else none

/-- Integral-floating conversion `static_cast<double>(n)` from `int32_t`: every
such value is a `double`, so the conversion is exact. -/
def Float64.ofInt32 (n : CInt .i32) : Float64 := ⟨n.val⟩

/-- The bare expression `x rel y` on two finite `double` values. -/
def Float64.rel (r : Rel) (x y : Float64) : Bool :=
  match r with
  | .eq => decide (x.val = y.val)
  | .ne => decide (x.val ≠ y.val)
  | .lt => decide (x.val < y.val)
  | .gt => decide (x.val > y.val)
  | .le => decide (x.val ≤ y.val)
  | .ge => decide (x.val ≥ y.val)

/-- Rounding of a rational to the nearest integer, ties to the even one. -/
def roundHalfEven (y : ℚ) : Int :=
  if y - ⌊y⌋ < 1 / 2 then ⌊y⌋
  else if 1 / 2 < y - ⌊y⌋ then ⌊y⌋ + 1
  else if ⌊y⌋ % 2 = 0 then ⌊y⌋ else ⌊y⌋ + 1

/-- The binary exponent under which `x` is represented: the exponent of its
leading bit, and the least exponent `-1022` in the subnormal range. -/
def Float64.expOf (x : ℚ) : Int := max (Int.log 2 |x|) (-1022)

/-- The spacing of the `double` values around `x`: 53 significant bits. -/
def Float64.ulp (x : ℚ) : ℚ := 2 ^ (Float64.expOf x - 52)

/-- The `double` result of an operation whose exact result is `x` (IEEE 754
binary64, round to nearest, ties to even, no extended precision): the multiple
of the spacing nearest to `x`. When that is `2 ^ 1024` or more in magnitude
the result is an infinity, which is not a finite value (`none`). -/
def Float64.round (x : ℚ) : Option Float64 :=
  if |(roundHalfEven (x / Float64.ulp x) : ℚ) * Float64.ulp x| < 2 ^ (1024 : ℤ) then
    some ⟨roundHalfEven (x / Float64.ulp x) * Float64.ulp x⟩
  else none

/-- The bare expression `x + y` on two finite `double` values. -/
def Float64.add (x y : Float64) : Option Float64 := Float64.round (x.val + y.val)

/-- The bare expression `x * y` on two finite `double` values. -/
def Float64.mul (x y : Float64) : Option Float64 := Float64.round (x.val * y.val)

/-- The bare expression `x / y` on two finite `double` values; with `y` zero
the result is an infinity or NaN, not a finite value (`none`). -/
def Float64.div (x y : Float64) : Option Float64 :=
  if y.val = 0 then none else Float64.round (x.val / y.val)

/-- Value-initialisation `T{}` of an arithmetic type: zero. -/
class ValueInit (α : Type) where
  valueInit : α

instance (T : IntTy) : ValueInit (CInt T) := ⟨CInt.ofInt T 0⟩

instance : ValueInit Float64 := ⟨⟨0⟩⟩

/-! ## Host layer: output streams -/

/-- An output stream with default formatting (decimal, no width, no
`showpos`): the characters written so far. -/
structure OStream where
  buf : String

/-- The decimal digits of an `int`, with a leading `-` when negative. -/
def decimal (n : Int) : String :=
  if n < 0 then "-" ++ Nat.repr n.natAbs else Nat.repr n.natAbs

/-- The built-in inserter `os << n` for `int n`. -/
def OStream.insertInt (os : OStream) (n : CInt .i32) : OStream :=
  ⟨os.buf ++ decimal n.val⟩

/-! ## The `Unit` class template -/

/-- The class template `Unit<T>`: the protected member `T val` is the only state. The
constructor `Unit(T i) : val(i)` is `Unit.mk`. -/
structure Unit (α : Type) where
  val : α
  deriving DecidableEq

namespace Unit

variable {α : Type} {T A B : IntTy}

/-- Default constructor `Unit() : val{}`. -/
def init [ValueInit α] : Unit α := ⟨ValueInit.valueInit⟩

/-- Accessor `const T& get() { return val; }`. -/
def get (u : Unit α) : α := u.val

/-- Mutator `void set(T v) { val = v; }`: the object after the call. -/
def set (u : Unit α) (v : α) : Unit α := { u with val := v }

/-- Conversion operator
`explicit operator Unit<U>() const { return Unit<U>(static_cast<U>(val)); }`
between integer types. -/
def cast (U : IntTy) (u : Unit (CInt T)) : Unit (CInt U) := Unit.mk (CInt.cast U u.val)

/-- Conversion operator `explicit operator Unit<U>()` from `Unit<double>` to an
integer type. -/
def castFromDouble (U : IntTy) (u : Unit Float64) : Option (Unit (CInt U)) :=
  (Float64.toInt U u.val).map Unit.mk

/-- Conversion operator `explicit operator Unit<double>()` from `Unit<int32_t>`. -/
def castToDouble (u : Unit (CInt .i32)) : Unit Float64 := Unit.mk (Float64.ofInt32 u.val)

/-- Member comparison operators, lines 26-31:
`bool operator==(const Unit<T>& rhs) const { return val == rhs.val; }` and
likewise for the other five. -/
def cmp (rel : Rel) (u rhs : Unit (CInt T)) : Bool := hostRel rel u.val rhs.val

/-- Member comparison operators for `T = double`. -/
def cmpDouble (rel : Rel) (u rhs : Unit Float64) : Bool := Float64.rel rel u.val rhs.val

/-- Member arithmetic operators, lines 40-44:
`Unit<T> operator+(const Unit<T>& unit) const { return Unit<T>(val + unit.val); }`
and likewise for `- * / %`. The operand of the constructor has the type of
`val + unit.val` and is converted to the parameter type `T`. -/
def arith (op : Op) (u unit : Unit (CInt T)) : Option (Unit (CInt T)) :=
  (hostOp op u.val unit.val).map fun r => Unit.mk (CInt.cast T r)

/-- Cross-type comparison templates, lines 55-83:
`return lhs.val == rhs.val;` and likewise for the other five. -/
def xcmp (rel : Rel) (lhs : Unit (CInt A)) (rhs : Unit (CInt B)) : Bool :=
  hostRel rel lhs.val rhs.val

/-- Cross-type arithmetic templates, lines 85-113:
`using T = decltype(lhs.val + rhs.val);`
`return Unit<T>(static_cast<T>(lhs.val) + static_cast<T>(rhs.val));`
and likewise for `- * / %`. -/
def xarith (op : Op) (lhs : Unit (CInt A)) (rhs : Unit (CInt B)) :
    Option (Unit (CInt (arithTy A B))) :=
  (hostOp op (CInt.cast (arithTy A B) lhs.val) (CInt.cast (arithTy A B) rhs.val)).map
    fun r => Unit.mk (CInt.cast (arithTy A B) r)

/-- Cross-type template `operator+`, lines 85-89, at `A = int32_t`,
`B = double`: `T = decltype(lhs.val + rhs.val)` is `double`, and
`return Unit<T>(static_cast<T>(lhs.val) + static_cast<T>(rhs.val));` converts
the left operand to `double`, leaves the right one as it is and adds in
`double`. -/
def xaddIntDouble (lhs : Unit (CInt .i32)) (rhs : Unit Float64) : Option (Unit Float64) :=
  (Float64.add (Float64.ofInt32 lhs.val) rhs.val).map Unit.mk

/-- Stream inserter
`friend std::ostream& operator<<(std::ostream& os, const Unit<T>& u)`
`{ return os << u.val; }` for `T = int`. -/
def insert (os : OStream) (u : Unit (CInt .i32)) : OStream := os.insertInt u.val

end Unit

/-- A literal of type `T`: the constant `x` converted to `T`. -/
def lit (T : IntTy) (x : Int) : CInt T := CInt.ofInt T x

/-! ## The `Velocity` example -/

/-- The example class `Velocity<T> : public Unit<T>` of the header (under
`UNITS_EXAMPLE`): no member of its own, the inherited `val` is the speed in
miles per hour. The readers and writers below are for `T = double`; a result
that is not a finite `double` is `none`. -/
structure Velocity (α : Type) extends Unit α

namespace Velocity

/-- The `double` literal `1.60934` of lines 124 and 127: the `double` nearest
to the decimal. -/
def kphFactor : Float64 := ⟨3623911512156217 / 2251799813685248⟩

/-- The `double` literal `2.2369362921` of lines 125 and 128: the `double`
nearest to the decimal. -/
def mpsFactor : Float64 := ⟨5037132725776549 / 2251799813685248⟩

/-- Reader `T mph() const { return val; }`. -/
def mph (u : Velocity Float64) : Float64 := u.val

/-- Reader `T kph() const { return val * 1.60934; }`. -/
def kph (u : Velocity Float64) : Option Float64 := Float64.mul u.val kphFactor

/-- Reader `T mps() const { return val / 2.2369362921; }`. -/
def mps (u : Velocity Float64) : Option Float64 := Float64.div u.val mpsFactor

/-- Writer `void mph(T v) { val = v; }`: the object after the call. -/
def setMph (u : Velocity Float64) (v : Float64) : Velocity Float64 := { u with val := v }

/-- Writer `void kph(T v) { val = v / 1.60934; }`: the object after the call. -/
def setKph (u : Velocity Float64) (v : Float64) : Option (Velocity Float64) :=
  (Float64.div v kphFactor).map fun x => { u with val := x }

/-- Writer `void mps(T v) { val = v * 2.2369362921; }`: the object after the
call. -/
def setMps (u : Velocity Float64) (v : Float64) : Option (Velocity Float64) :=
  (Float64.mul v mpsFactor).map fun x => { u with val := x }

end Velocity

/-! ## Auxiliary definitions -/

/-- Rounding toward zero in the words of the specification: the integer part
of `x`, the floor of a non-negative and the ceiling of a negative number. -/
def truncTowardZero (x : ℚ) : Int := if 0 ≤ x then ⌊x⌋ else ⌈x⌉

/-- The value computed by `evalIn`, on the integers the operands denote. -/
def evalVal (R : IntTy) (op : Op) (x y : Int) : Option Int :=
  if op.divides ∧ y = 0 then none
  else if R.signed then
    if InRange R (op.mustFit x y) then some (wrap R (op.exact x y)) else none
  else some (wrap R (op.exact x y))

/-! ## Facts about the host layer -/

theorem wrap_lo (T : IntTy) (x : Int) : T.minVal ≤ wrap T x := (CInt.ofInt T x).lo

theorem wrap_hi (T : IntTy) (x : Int) : wrap T x ≤ T.maxVal := (CInt.ofInt T x).hi

theorem Float64.trunc_eq (x : Float64) : x.trunc = truncTowardZero x.val := by
  unfold Float64.trunc truncTowardZero
  split_ifs with h
  · have hn : 0 ≤ x.val.num := Rat.num_nonneg.mpr h
    rw [Int.tdiv_eq_ediv hn (Int.ofNat_nonneg _), Rat.floor_def]
  · have hn : ¬ 0 ≤ x.val.num := fun hc => h (Rat.num_nonneg.mp hc)
    have hc : ⌈x.val⌉ = -⌊-x.val⌋ := by rw [Int.floor_neg, neg_neg]
    rw [hc, Rat.floor_def, Rat.neg_num, Rat.neg_den,
      ← Int.tdiv_eq_ediv (by omega) (Int.ofNat_nonneg _), Int.neg_tdiv, neg_neg]

theorem wrap_of_inRange {T : IntTy} {x : Int} (h : InRange T x) : wrap T x = x := by
  obtain ⟨h1, h2⟩ := h
  cases T <;> simp [wrap, IntTy.minVal, IntTy.maxVal, IntTy.signed, IntTy.bits] at * <;> omega

theorem CInt.inRange {T : IntTy} (a : CInt T) : InRange T a.val := ⟨a.lo, a.hi⟩

theorem arithTy_self (T : IntTy) : arithTy T T = promote T := by
  simp [arithTy]

theorem inRange_promote {T : IntTy} {x : Int} (h : InRange T x) : InRange (promote T) x := by
  obtain ⟨h1, h2⟩ := h
  cases T <;>
    simp [InRange, promote, IntTy.rank, IntTy.minVal, IntTy.maxVal, IntTy.signed,
      IntTy.bits] at * <;> omega

theorem promote_inRange_val {T : IntTy} (a : CInt T) : wrap (arithTy T T) a.val = a.val := by
  rw [arithTy_self]
  exact wrap_of_inRange (inRange_promote a.inRange)

theorem evalIn_val (R : IntTy) (op : Op) (x y : CInt R) :
    (evalIn R op x y).map CInt.val = evalVal R op x.val y.val := by
  unfold evalIn evalVal
  split_ifs <;> rfl

theorem hostOp_val {A B : IntTy} (op : Op) (a : CInt A) (b : CInt B) :
    (hostOp op a b).map CInt.val
      = evalVal (arithTy A B) op (wrap (arithTy A B) a.val) (wrap (arithTy A B) b.val) := by
  unfold hostOp
  rw [evalIn_val]
  rfl

theorem hostOp_self_val {T : IntTy} (op : Op) (a b : CInt T) :
    (hostOp op a b).map CInt.val = evalVal (promote T) op a.val b.val := by
  rw [hostOp_val op a b, arithTy_self, wrap_of_inRange (inRange_promote a.inRange),
    wrap_of_inRange (inRange_promote b.inRange)]

theorem Unit.arith_val {T : IntTy} (op : Op) (u v : Unit (CInt T)) :
    (u.arith op v).map (fun r => r.get.val)
      = (evalVal (promote T) op u.val.val v.val.val).map (wrap T) := by
  rw [← hostOp_self_val]
  unfold Unit.arith
  cases hostOp op u.val v.val <;> rfl

theorem tdiv_tmod_unsigned_bounds {x y : Int} (hx : 0 ≤ x) (hy : 0 ≤ y) (hy0 : y ≠ 0) :
    0 ≤ Int.tdiv x y ∧ Int.tdiv x y ≤ x ∧ 0 ≤ Int.tmod x y ∧ Int.tmod x y < y := by
  have hy1 : 0 < y := lt_of_le_of_ne hy (Ne.symm hy0)
  refine ⟨Int.tdiv_nonneg hx hy, ?_, Int.tmod_nonneg _ hx, Int.tmod_lt_of_pos _ hy1⟩
  rw [Int.tdiv_eq_ediv hx hy]
  exact Int.ediv_le_self _ hx

theorem mustFit_of_ne_mod {op : Op} (h : op ≠ .mod) (x y : Int) :
    op.mustFit x y = op.exact x y := by
  cases op <;> first | rfl | exact absurd rfl h

theorem wrap_unsigned {T : IntTy} (h : T.signed = false) (x : Int) :
    wrap T x = x % 2 ^ T.bits := by
  simp [wrap, h]

theorem minVal_unsigned {T : IntTy} (h : T.signed = false) : T.minVal = 0 := by
  simp [IntTy.minVal, h]

/-- The value of a defined operation in `T`, under the side conditions of the
built-in operators. -/
theorem evalVal_defined (T : IntTy) (op : Op) (x y : Int) (hx : InRange T x) (hy : InRange T y)
    (hdiv : op.divides = true → y ≠ 0)
    (hfit : T.signed = true →
      InRange T (op.exact x y) ∧ (op = .mod → InRange T (Int.tdiv x y))) :
    ∃ v, evalVal T op x y = some v ∧ InRange T v ∧
      (T.signed = true ∨ op.divides = true → v = op.exact x y) ∧
      (T.signed = false → v = op.exact x y % 2 ^ T.bits) := by
  have hnz : ¬ (op.divides = true ∧ y = 0) := fun h => hdiv h.1 h.2
  cases hs : T.signed with
  | true =>
    obtain ⟨hex, hq⟩ := hfit hs
    have hmf : InRange T (op.mustFit x y) := by
      by_cases hm : op = .mod
      · subst hm; exact hq rfl
      · rw [mustFit_of_ne_mod hm]; exact hex
    refine ⟨op.exact x y, ?_, hex, fun _ => rfl, fun h => by simp at h⟩
    simp [evalVal, hnz, hs, hmf, wrap_of_inRange hex]
  | false =>
    refine ⟨wrap T (op.exact x y), ?_, ⟨wrap_lo _ _, wrap_hi _ _⟩, ?_, fun _ => wrap_unsigned hs _⟩
    · simp [evalVal, hnz, hs]
    · intro h
      rcases h with h | h
      · simp at h
      · apply wrap_of_inRange
        have hx0 : 0 ≤ x := by have := hx.1; rwa [minVal_unsigned hs] at this
        have hy0 : 0 ≤ y := by have := hy.1; rwa [minVal_unsigned hs] at this
        have hxm := hx.2
        obtain ⟨b1, b2, b3, b4⟩ := tdiv_tmod_unsigned_bounds hx0 hy0 (hdiv h)
        have hym := hy.2
        unfold InRange
        rw [minVal_unsigned hs]
        cases op <;> simp [Op.divides] at h <;> simp only [Op.exact] <;> constructor <;> omega

theorem promote_narrow {T : IntTy} (h : T.rank < 3) : promote T = .i32 := by
  simp [promote, h]

theorem promote_arithTy (A B : IntTy) : promote (arithTy A B) = arithTy A B := by
  cases A <;> cases B <;> decide

theorem CInt.ext_val {T : IntTy} {x y : CInt T} (h : x.val = y.val) : x = y := by
  cases x; cases y; cases h; rfl

theorem mul_bounds (M a b : Int) (ha1 : -M ≤ a) (ha2 : a ≤ M) (hb1 : -M ≤ b) (hb2 : b ≤ M) :
    -(M * M) ≤ a * b ∧ a * b ≤ M * M := by
  constructor <;> nlinarith [mul_nonneg (sub_nonneg.mpr ha2) (sub_nonneg.mpr hb2),
    mul_nonneg (sub_nonneg.mpr ha2) (neg_le_iff_add_nonneg.mp hb1),
    mul_nonneg (neg_le_iff_add_nonneg.mp ha1) (sub_nonneg.mpr hb2),
    mul_nonneg (neg_le_iff_add_nonneg.mp ha1) (neg_le_iff_add_nonneg.mp hb1)]

/-- In `int`, `+ - *` on operands of a narrower type do not overflow, except
for the product of two `uint16` values. -/
theorem narrow_exact_inRange (T : IntTy) (hT : T.rank < 3) (op : Op) (hop : op.divides = false)
    (x y : Int) (hx : InRange T x) (hy : InRange T y)
    (hfit : T = .u16 → op = .mul → x * y ≤ 2147483647) :
    InRange .i32 (op.exact x y) := by
  obtain ⟨hx1, hx2⟩ := hx
  obtain ⟨hy1, hy2⟩ := hy
  cases T <;> simp [IntTy.rank] at hT <;>
    simp [InRange, IntTy.minVal, IntTy.maxVal, IntTy.signed, IntTy.bits] at * <;>
    cases op <;> simp [Op.divides] at hop <;> simp only [Op.exact] <;>
    first
    | omega
    | (have h8 := mul_bounds 128 x y (by omega) (by omega) (by omega) (by omega); omega)
    | (have h8 := mul_bounds 255 x y (by omega) (by omega) (by omega) (by omega); omega)
    | (have h8 := mul_bounds 32768 x y (by omega) (by omega) (by omega) (by omega); omega)
    | (have h8 := mul_nonneg hx1 hy1
       have h9 := hfit rfl
       omega)

theorem bits_le_arithTy_right (A B : IntTy) : B.bits ≤ (arithTy A B).bits := by
  cases A <;> cases B <;> decide

theorem wrap_ne_zero_of_bits_le (R B : IntTy) (h : B.bits ≤ R.bits) (y : Int)
    (hy : InRange B y) (hne : y ≠ 0) : wrap R y ≠ 0 := by
  obtain ⟨h1, h2⟩ := hy
  cases R <;> cases B <;> simp [IntTy.bits] at h <;>
    simp [wrap, IntTy.minVal, IntTy.maxVal, IntTy.signed, IntTy.bits] at * <;> omega

theorem hostOp_arithTy_val {A B : IntTy} (op : Op) (x y : CInt (arithTy A B)) :
    (hostOp op x y).map CInt.val = evalVal (arithTy A B) op x.val y.val := by
  rw [hostOp_self_val, promote_arithTy]

theorem Unit.xarith_val {A B : IntTy} (op : Op) (u : Unit (CInt A)) (v : Unit (CInt B)) :
    (u.xarith op v).map (fun r => r.get.val)
      = (evalVal (arithTy A B) op (wrap (arithTy A B) u.val.val)
          (wrap (arithTy A B) v.val.val)).map (wrap (arithTy A B)) := by
  have h := hostOp_arithTy_val op (CInt.cast (arithTy A B) u.val) (CInt.cast (arithTy A B) v.val)
  rw [show (CInt.cast (arithTy A B) u.val).val = wrap (arithTy A B) u.val.val from rfl,
    show (CInt.cast (arithTy A B) v.val).val = wrap (arithTy A B) v.val.val from rfl] at h
  rw [← h]
  unfold Unit.xarith
  cases hostOp op (CInt.cast (arithTy A B) u.val) (CInt.cast (arithTy A B) v.val) <;> rfl

theorem wrap_i64_of_i32 (a : CInt .i32) : wrap .i64 a.val = a.val := by
  have h1 := a.lo
  have h2 := a.hi
  simp [wrap, IntTy.minVal, IntTy.maxVal, IntTy.signed, IntTy.bits] at *
  omega

theorem wrap_u32_of_u32 (b : CInt .u32) : wrap .u32 b.val = b.val := wrap_of_inRange b.inRange

theorem wrap_u32_eq (x : Int) : wrap .u32 x = x % 4294967296 := by
  simp [wrap, IntTy.signed, IntTy.bits]

theorem Unit.xcmp_val {A B : IntTy} (rel : Rel) (u : Unit (CInt A)) (v : Unit (CInt B)) :
    u.xcmp rel v = rel.holds (wrap (arithTy A B) u.val.val) (wrap (arithTy A B) v.val.val) := rfl

theorem wrap_wrap (T : IntTy) (x : Int) : wrap T (wrap T x) = wrap T x :=
  wrap_of_inRange ⟨wrap_lo T x, wrap_hi T x⟩

theorem evalVal_map_wrap (R : IntTy) (op : Op) (x y : Int) :
    (evalVal R op x y).map (wrap R) = evalVal R op x y := by
  unfold evalVal
  split_ifs <;> simp [wrap_wrap]

theorem Unit.xarith_eq_hostOp {A B : IntTy} (op : Op) (u : Unit (CInt A)) (v : Unit (CInt B)) :
    (u.xarith op v).map (fun r => r.get.val) = (hostOp op u.val v.val).map CInt.val := by
  rw [Unit.xarith_val, hostOp_val, evalVal_map_wrap]

theorem Unit.arith_eq_hostOp {T : IntTy} (op : Op) (u v : Unit (CInt T)) :
    (u.arith op v).map (fun r => r.get.val) = (hostOp op u.val v.val).map (fun h => wrap T h.val) := by
  unfold Unit.arith
  cases hostOp op u.val v.val <;> rfl

theorem Unit.cmp_val {T : IntTy} (rel : Rel) (u v : Unit (CInt T)) :
    u.cmp rel v = rel.holds u.val.val v.val.val := by
  unfold Unit.cmp hostRel
  rw [show (CInt.cast (arithTy T T) u.val).val = wrap (arithTy T T) u.val.val from rfl,
    show (CInt.cast (arithTy T T) v.val).val = wrap (arithTy T T) v.val.val from rfl,
    promote_inRange_val, promote_inRange_val]

theorem arithTy_comm (A B : IntTy) : arithTy A B = arithTy B A := by
  cases A <;> cases B <;> decide

theorem evalVal_add_comm (R : IntTy) (x y : Int) : evalVal R .add x y = evalVal R .add y x := by
  simp [evalVal, Op.divides, Op.exact, Op.mustFit, add_comm]

theorem evalVal_mul_comm (R : IntTy) (x y : Int) : evalVal R .mul x y = evalVal R .mul y x := by
  simp [evalVal, Op.divides, Op.exact, Op.mustFit, mul_comm]

/-- A same-type member operator on a type that promotes to itself is defined
under the side conditions of the built-in operator, with the exact value for a
signed type and for `/`, `%`, and the value modulo `2 ^ bits` otherwise. -/
theorem Unit.arith_defined (T : IntTy) (hp : promote T = T) (op : Op) (u v : Unit (CInt T))
    (hdiv : op.divides = true → v.val.val ≠ 0)
    (hfit : T.signed = true →
      InRange T (op.exact u.val.val v.val.val) ∧
      (op = .mod → InRange T (Int.tdiv u.val.val v.val.val))) :
    ∃ r, u.arith op v = some r ∧
      (T.signed = true ∨ op.divides = true → r.get.val = op.exact u.val.val v.val.val) ∧
      (T.signed = false → r.get.val = op.exact u.val.val v.val.val % 2 ^ T.bits) := by
  have hU := Unit.arith_val op u v
  rw [hp] at hU
  obtain ⟨w, hw, hwr, hw1, hw2⟩ :=
    evalVal_defined T op u.val.val v.val.val u.val.inRange v.val.inRange hdiv hfit
  rw [hw, Option.map_some', wrap_of_inRange hwr] at hU
  obtain ⟨r, hr, hrv⟩ := Option.map_eq_some'.mp hU
  exact ⟨r, hr, by rw [hrv]; exact hw1, by rw [hrv]; exact hw2⟩

theorem decide_le_eq_not_lt (a b : Int) : decide (a ≤ b) = !decide (b < a) := by
  by_cases h : a ≤ b
  · simp [h, not_lt.mpr h]
  · simp [h, not_le.mp h]

theorem tmod_sign_bounds (a b : Int) (hb : b ≠ 0) :
    (0 ≤ a → 0 ≤ Int.tmod a b ∧ Int.tmod a b ≤ a) ∧
    (a ≤ 0 → a ≤ Int.tmod a b ∧ Int.tmod a b ≤ 0) ∧
    |Int.tmod a b| < |b| := by
  have hn : (Int.tmod a b).natAbs = a.natAbs % b.natAbs := by
    rcases a with n | n <;> rcases b with m | m <;> simp [Int.tmod] <;> rfl
  have hb' : 0 < b.natAbs := Int.natAbs_pos.mpr hb
  have h1 : a.natAbs % b.natAbs < b.natAbs := Nat.mod_lt _ hb'
  have h2 : a.natAbs % b.natAbs ≤ a.natAbs := Nat.mod_le _ _
  have hs1 : 0 ≤ a → 0 ≤ Int.tmod a b := Int.tmod_nonneg b
  have hs2 : a ≤ 0 → Int.tmod a b ≤ 0 := by
    intro ha
    have hneg : Int.tmod (-a) b = -(Int.tmod a b) := by
      rw [Int.tmod_def, Int.neg_tdiv, Int.tmod_def]; ring
    have := Int.tmod_nonneg b (show 0 ≤ -a by omega)
    rw [hneg] at this
    omega
  rw [abs_lt]
  refine ⟨fun ha => ⟨hs1 ha, by have := hs1 ha; omega⟩,
    fun ha => ⟨by have := hs2 ha; omega, hs2 ha⟩, ?_⟩
  constructor
  · rw [Int.abs_eq_natAbs]; omega
  · rw [Int.abs_eq_natAbs]; omega

theorem tdiv_inRange_i32 (a b : Int) (ha1 : -2147483648 ≤ a) (ha2 : a ≤ 2147483647)
    (hb : b ≠ 0) (hov : ¬ (a = -2147483648 ∧ b = -1)) :
    -2147483648 ≤ Int.tdiv a b ∧ Int.tdiv a b ≤ 2147483647 := by
  have hn : (Int.tdiv a b).natAbs = a.natAbs / b.natAbs := Int.natAbs_tdiv a b
  have h1 : a.natAbs / b.natAbs ≤ a.natAbs := Nat.div_le_self _ _
  by_cases h2 : 2 ≤ b.natAbs
  · have h3 : a.natAbs / b.natAbs ≤ a.natAbs / 2 := Nat.div_le_div_left h2 (by decide)
    omega
  · have hb1 : b = 1 ∨ b = -1 := by omega
    rcases hb1 with rfl | rfl
    · rw [Int.tdiv_one]; omega
    · rw [show (-1 : Int) = -(1 : Int) from rfl, Int.tdiv_neg, Int.tdiv_one]; omega

theorem inRange_i32_iff (x : Int) : InRange .i32 x ↔ -2147483648 ≤ x ∧ x ≤ 2147483647 := by
  simp [InRange, IntTy.minVal, IntTy.maxVal, IntTy.signed, IntTy.bits]

theorem roundHalfEven_error (y : ℚ) : |(roundHalfEven y : ℚ) - y| ≤ 1 / 2 := by
  have h1 := Int.floor_le y
  have h2 := Int.lt_floor_add_one y
  unfold roundHalfEven
  split_ifs with c1 c2 c3
  · rw [abs_le]; constructor <;> linarith
  · rw [abs_le]; push_cast; constructor <;> linarith
  · rw [abs_le]; constructor <;> linarith
  · rw [abs_le]; push_cast; constructor <;> linarith

theorem roundHalfEven_eq (y : ℚ) (n : Int) (h : |y - n| < 1 / 2) : roundHalfEven y = n := by
  have h1 := Int.floor_le y
  have h2 := Int.lt_floor_add_one y
  rw [abs_lt] at h
  obtain ⟨h3, h4⟩ := h
  unfold roundHalfEven
  split_ifs with c1 c2 c3
  · have : (⌊y⌋ : ℚ) < n + 1 := by linarith
    have : (n : ℚ) < ⌊y⌋ + 1 := by linarith
    have a1 : ⌊y⌋ < n + 1 := by exact_mod_cast ‹(⌊y⌋ : ℚ) < n + 1›
    have a2 : n < ⌊y⌋ + 1 := by exact_mod_cast ‹(n : ℚ) < ⌊y⌋ + 1›
    omega
  · have b1 : (⌊y⌋ : ℚ) + 1 < n + 1 := by linarith
    have b2 : (n : ℚ) < ⌊y⌋ + 1 + 1 := by linarith
    have a1 : ⌊y⌋ + 1 < n + 1 := by exact_mod_cast b1
    have a2 : n < ⌊y⌋ + 1 + 1 := by exact_mod_cast b2
    omega
  · exfalso
    have e : y - ⌊y⌋ = 1 / 2 := le_antisymm (not_lt.mp c2) (not_lt.mp c1)
    have b1 : (⌊y⌋ : ℚ) < n := by linarith
    have b2 : (n : ℚ) < ⌊y⌋ + 1 := by linarith
    have a1 : ⌊y⌋ < n := by exact_mod_cast b1
    have a2 : n < ⌊y⌋ + 1 := by exact_mod_cast b2
    omega
  · exfalso
    have e : y - ⌊y⌋ = 1 / 2 := le_antisymm (not_lt.mp c2) (not_lt.mp c1)
    have b1 : (⌊y⌋ : ℚ) < n := by linarith
    have b2 : (n : ℚ) < ⌊y⌋ + 1 := by linarith
    have a1 : ⌊y⌋ < n := by exact_mod_cast b1
    have a2 : n < ⌊y⌋ + 1 := by exact_mod_cast b2
    omega

theorem Float64.ulp_pos (x : ℚ) : 0 < Float64.ulp x := by
  unfold Float64.ulp
  positivity

theorem Float64.expOf_eq (x : ℚ) (e : Int) (he : -1022 ≤ e) (h1 : 2 ^ e ≤ |x|)
    (h2 : |x| < 2 ^ (e + 1)) : Float64.expOf x = e := by
  have hx : 0 < |x| := lt_of_lt_of_le (by positivity) h1
  have a1 : e ≤ Int.log 2 |x| := by
    rw [← Int.zpow_le_iff_le_log (by decide) hx]
    simpa using h1
  have a2 : Int.log 2 |x| < e + 1 := by
    rw [← Int.lt_zpow_iff_log_lt (by decide) hx]
    simpa using h2
  unfold Float64.expOf
  omega

theorem two_zpow_le {m n : ℤ} (h : m ≤ n) : (2 : ℚ) ^ m ≤ 2 ^ n :=
  zpow_le_zpow_right₀ (by norm_num) h

theorem two_zpow_lt {m n : ℤ} (h : m < n) : (2 : ℚ) ^ m < 2 ^ n :=
  zpow_lt_zpow_right₀ (by norm_num) h

theorem two_zpow_pos (n : ℤ) : (0 : ℚ) < 2 ^ n := by positivity

theorem two_zpow_succ (n : ℤ) : (2 : ℚ) ^ (n + 1) = 2 * 2 ^ n := by
  rw [zpow_add_one₀ (by norm_num)]; ring

theorem two_zpow_double {m n : ℤ} (h : m = n + 1) : (2 : ℚ) ^ m = 2 * 2 ^ n := by
  subst h; exact two_zpow_succ n

theorem Float64.expOf_le (x : ℚ) (h : |x| < 2 ^ (1024 : ℤ)) : Float64.expOf x ≤ 1023 := by
  unfold Float64.expOf
  rcases eq_or_lt_of_le (abs_nonneg x) with h0 | h0
  · rw [← h0, Int.log_zero_right]; decide
  · have a2 : Int.log 2 |x| < 1024 := by
      rw [← Int.lt_zpow_iff_log_lt (by decide) h0]
      simpa using h
    omega

/-- Below the overflow threshold the rounded result is finite and within half
a spacing of the exact one. -/
theorem Float64.round_some (x : ℚ) (h : |x| < 2 ^ (1024 : ℤ) - 2 ^ (970 : ℤ)) :
    ∃ r, Float64.round x = some r ∧ |r.val - x| ≤ Float64.ulp x / 2 := by
  have hq := Float64.ulp_pos x
  have p0 := two_zpow_pos 970
  have herr : |(roundHalfEven (x / Float64.ulp x) : ℚ) * Float64.ulp x - x|
      ≤ Float64.ulp x / 2 := by
    have e1 : (roundHalfEven (x / Float64.ulp x) : ℚ) * Float64.ulp x - x
        = ((roundHalfEven (x / Float64.ulp x) : ℚ) - x / Float64.ulp x) * Float64.ulp x := by
      field_simp
    rw [e1, abs_mul, abs_of_pos hq]
    have := roundHalfEven_error (x / Float64.ulp x)
    nlinarith
  have hq2 : Float64.ulp x ≤ 2 ^ (971 : ℤ) := by
    unfold Float64.ulp
    have he := Float64.expOf_le x (by linarith)
    exact two_zpow_le (by omega)
  have hlt : |(roundHalfEven (x / Float64.ulp x) : ℚ) * Float64.ulp x| < 2 ^ (1024 : ℤ) := by
    have t := abs_sub_abs_le_abs_sub ((roundHalfEven (x / Float64.ulp x) : ℚ) * Float64.ulp x) x
    have p1 : (2 : ℚ) ^ (971 : ℤ) = 2 * 2 ^ (970 : ℤ) := two_zpow_double (by decide)
    generalize (2 : ℚ) ^ (971 : ℤ) = a at *
    generalize (2 : ℚ) ^ (970 : ℤ) = b at *
    generalize (2 : ℚ) ^ (1024 : ℤ) = c at *
    linarith
  refine ⟨⟨roundHalfEven (x / Float64.ulp x) * Float64.ulp x⟩, ?_, herr⟩
  unfold Float64.round
  rw [if_pos hlt]

theorem two_zpow_1023_lt : (2 : ℚ) ^ (1023 : ℤ) < 2 ^ (1024 : ℤ) - 2 ^ (970 : ℤ) := by
  have p1 : (2 : ℚ) ^ (970 : ℤ) < 2 ^ (1023 : ℤ) := two_zpow_lt (by decide)
  have p2 : (2 : ℚ) ^ (1024 : ℤ) = 2 * 2 ^ (1023 : ℤ) := two_zpow_double (by decide)
  generalize (2 : ℚ) ^ (1023 : ℤ) = a at *
  generalize (2 : ℚ) ^ (970 : ℤ) = b at *
  generalize (2 : ℚ) ^ (1024 : ℤ) = c at *
  linarith

theorem Float64.round_rel (x : ℚ) (h1 : 2 ^ (-1022 : ℤ) ≤ |x|) (h2 : |x| ≤ 2 ^ (1023 : ℤ)) :
    ∃ r, Float64.round x = some r ∧ |r.val - x| ≤ |x| / 2 ^ 53 := by
  obtain ⟨r, hr, he⟩ := Float64.round_some x (lt_of_le_of_lt h2 two_zpow_1023_lt)
  refine ⟨r, hr, le_trans he ?_⟩
  have hx : 0 < |x| := lt_of_lt_of_le (two_zpow_pos _) h1
  have a1 : (-1022 : ℤ) ≤ Int.log 2 |x| := by
    rw [← Int.zpow_le_iff_le_log (by decide) hx]
    simpa using h1
  have hlog := Int.zpow_log_le_self (b := 2) (by decide) hx
  have hexp : Float64.expOf x = Int.log 2 |x| := by
    unfold Float64.expOf; omega
  unfold Float64.ulp
  rw [hexp]
  have hl2 : (2 : ℚ) ^ Int.log 2 |x| ≤ |x| := by simpa using hlog
  have e : (2 : ℚ) ^ (Int.log 2 |x| - 52) / 2 = (2 : ℚ) ^ Int.log 2 |x| / 2 ^ 53 := by
    rw [zpow_sub₀ (by norm_num), div_div]
    norm_num
  rw [e]
  exact div_le_div_of_nonneg_right hl2 (by positivity)

theorem Float64.round_eq_of_pos (x : ℚ) (e n : ℤ) (he : -1022 ≤ e) (he2 : e ≤ 1022)
    (h1 : 2 ^ e ≤ x) (h2 : x < 2 ^ (e + 1)) (hn : |x / 2 ^ (e - 52) - n| < 1 / 2) :
    (Float64.round x).map Float64.val = some ((n : ℚ) * 2 ^ (e - 52)) := by
  have hx : 0 < x := lt_of_lt_of_le (two_zpow_pos e) h1
  have hexp : Float64.expOf x = e := by
    apply Float64.expOf_eq x e he <;> rw [abs_of_pos hx] <;> assumption
  have hu : Float64.ulp x = 2 ^ (e - 52) := by unfold Float64.ulp; rw [hexp]
  have hr : roundHalfEven (x / Float64.ulp x) = n := by
    rw [hu]; exact roundHalfEven_eq _ n hn
  obtain ⟨r, hr1, -⟩ := Float64.round_some x (by
    rw [abs_of_pos hx]
    exact lt_trans (lt_of_lt_of_le h2 (two_zpow_le (by omega))) two_zpow_1023_lt)
  have hval : r.val = n * 2 ^ (e - 52) := by
    unfold Float64.round at hr1
    split_ifs at hr1
    rw [← Option.some.inj hr1, hr, hu]
  rw [hr1, Option.map_some', hval]

theorem two_zpow_facts :
    ∃ lo hi L H : ℚ, lo = 2 ^ (-1022 : ℤ) ∧ hi = 2 ^ (1023 : ℤ) ∧ L = 2 ^ (-1000 : ℤ) ∧
      H = 2 ^ (1000 : ℤ) ∧ lo ≤ L / 4 ∧ 4 * H ≤ hi ∧ 0 < L := by
  have q1 : (2 : ℚ) ^ (-1001 : ℤ) = 2 * 2 ^ (-1002 : ℤ) := two_zpow_double (by decide)
  have q2 : (2 : ℚ) ^ (-1000 : ℤ) = 2 * 2 ^ (-1001 : ℤ) := two_zpow_double (by decide)
  have q3 : (2 : ℚ) ^ (-1022 : ℤ) ≤ 2 ^ (-1002 : ℤ) := two_zpow_le (by decide)
  have q4 : (2 : ℚ) ^ (1001 : ℤ) = 2 * 2 ^ (1000 : ℤ) := two_zpow_double (by decide)
  have q5 : (2 : ℚ) ^ (1002 : ℤ) = 2 * 2 ^ (1001 : ℤ) := two_zpow_double (by decide)
  have q6 : (2 : ℚ) ^ (1002 : ℤ) ≤ 2 ^ (1023 : ℤ) := two_zpow_le (by decide)
  have q7 := two_zpow_pos (-1000)
  refine ⟨_, _, _, _, rfl, rfl, rfl, rfl, ?_, ?_, q7⟩
  · generalize (2 : ℚ) ^ (-1022 : ℤ) = a at *
    generalize (2 : ℚ) ^ (-1002 : ℤ) = b at *
    generalize (2 : ℚ) ^ (-1001 : ℤ) = c at *
    generalize (2 : ℚ) ^ (-1000 : ℤ) = d at *
    linarith
  · generalize (2 : ℚ) ^ (1000 : ℤ) = e at *
    generalize (2 : ℚ) ^ (1001 : ℤ) = f at *
    generalize (2 : ℚ) ^ (1002 : ℤ) = g at *
    generalize (2 : ℚ) ^ (1023 : ℤ) = h at *
    linarith

theorem Float64.round_rel_of (x lo hi : ℚ) (hlo : lo = 2 ^ (-1022 : ℤ))
    (hhi : hi = 2 ^ (1023 : ℤ)) (h1 : lo ≤ |x|) (h2 : |x| ≤ hi) :
    ∃ r, Float64.round x = some r ∧ |r.val - x| ≤ |x| / 2 ^ 53 :=
  Float64.round_rel x (hlo ▸ h1) (hhi ▸ h2)

theorem round_trip_bound (a : ℚ) (ha : 0 ≤ a) :
    (a + a / 2 ^ 53) / 2 ^ 53 + a / 2 ^ 53 ≤ a / 2 ^ 51 := by
  have : (a + a / 2 ^ 53) / 2 ^ 53 + a / 2 ^ 53
      = a * ((1 + 1 / 2 ^ 53) / 2 ^ 53 + 1 / 2 ^ 53) := by ring
  rw [this, div_eq_mul_one_div a (2 ^ 51)]
  apply mul_le_mul_of_nonneg_left _ ha
  norm_num

/-- Dividing by a constant and multiplying back, each operation rounded. -/
theorem Float64.div_mul_round_trip (c v : ℚ) (hc1 : 1 ≤ c) (hc2 : c ≤ 4)
    (h1 : 2 ^ (-1000 : ℤ) ≤ |v|) (h2 : |v| ≤ 2 ^ (1000 : ℤ)) :
    ∃ s r, Float64.round (v / c) = some s ∧ Float64.round (s.val * c) = some r ∧
      |r.val - v| ≤ |v| / 2 ^ 51 := by
  obtain ⟨lo, hi, L, H, hlo, hhi, hL, hH, f1, f2, f3⟩ := two_zpow_facts
  rw [← hL] at h1
  rw [← hH] at h2
  have hc0 : 0 < c := by linarith
  have ha : 0 < |v| := lt_of_lt_of_le f3 h1
  have hA : |v / c| * c = |v| := by
    rw [abs_div, abs_of_pos hc0]; field_simp
  have hA0 : 0 ≤ |v / c| := abs_nonneg _
  have hAl : |v| ≤ 4 * |v / c| := by nlinarith [mul_le_mul_of_nonneg_left hc2 hA0]
  have hAu : |v / c| ≤ |v| := by nlinarith [mul_le_mul_of_nonneg_left hc1 hA0]
  obtain ⟨s, hs, hse⟩ := Float64.round_rel_of (v / c) lo hi hlo hhi (by linarith) (by linarith)
  have hd1 : |s.val * c - v| ≤ |v| / 2 ^ 53 := by
    have e1 : s.val * c - v = (s.val - v / c) * c := by field_simp
    rw [e1, abs_mul, abs_of_pos hc0]
    calc |s.val - v / c| * c ≤ |v / c| / 2 ^ 53 * c :=
          mul_le_mul_of_nonneg_right hse (le_of_lt hc0)
      _ = |v| / 2 ^ 53 := by rw [← hA]; ring
  have hB1 : |s.val * c| ≤ |v| + |v| / 2 ^ 53 := by
    have := abs_sub_abs_le_abs_sub (s.val * c) v
    linarith
  have hB2 : |v| - |v| / 2 ^ 53 ≤ |s.val * c| := by
    have := abs_sub_abs_le_abs_sub v (s.val * c)
    rw [abs_sub_comm] at this
    linarith
  have hu : |v| / 2 ^ 53 ≤ |v| / 2 := by
    apply div_le_div_of_nonneg_left (le_of_lt ha) (by norm_num) (by norm_num)
  obtain ⟨r, hr, hre⟩ := Float64.round_rel_of (s.val * c) lo hi hlo hhi (by linarith) (by linarith)
  refine ⟨s, r, hs, hr, ?_⟩
  have t := abs_sub_le r.val (s.val * c) v
  have hB3 : |s.val * c| / 2 ^ 53 ≤ (|v| + |v| / 2 ^ 53) / 2 ^ 53 :=
    div_le_div_of_nonneg_right hB1 (by positivity)
  have hfin := round_trip_bound |v| (le_of_lt ha)
  linarith

/-- Multiplying by a constant and dividing back, each operation rounded. -/
theorem Float64.mul_div_round_trip (c v : ℚ) (hc1 : 1 ≤ c) (hc2 : c ≤ 4)
    (h1 : 2 ^ (-1000 : ℤ) ≤ |v|) (h2 : |v| ≤ 2 ^ (1000 : ℤ)) :
    ∃ s r, Float64.round (v * c) = some s ∧ Float64.round (s.val / c) = some r ∧
      |r.val - v| ≤ |v| / 2 ^ 51 := by
  obtain ⟨lo, hi, L, H, hlo, hhi, hL, hH, f1, f2, f3⟩ := two_zpow_facts
  rw [← hL] at h1
  rw [← hH] at h2
  have hc0 : 0 < c := by linarith
  have ha : 0 < |v| := lt_of_lt_of_le f3 h1
  have hA : |v * c| = |v| * c := by rw [abs_mul, abs_of_pos hc0]
  have hAl : |v| ≤ |v| * c := by nlinarith [mul_le_mul_of_nonneg_left hc1 (le_of_lt ha)]
  have hAu : |v| * c ≤ 4 * |v| := by nlinarith [mul_le_mul_of_nonneg_left hc2 (le_of_lt ha)]
  obtain ⟨s, hs, hse⟩ := Float64.round_rel_of (v * c) lo hi hlo hhi (by rw [hA]; linarith)
    (by rw [hA]; linarith)
  have hd1 : |s.val / c - v| ≤ |v| / 2 ^ 53 := by
    have e1 : s.val / c - v = (s.val - v * c) / c := by field_simp; ring
    rw [e1, abs_div, abs_of_pos hc0, div_le_iff₀ hc0]
    calc |s.val - v * c| ≤ |v * c| / 2 ^ 53 := hse
      _ = |v| / 2 ^ 53 * c := by rw [hA]; ring
  have hB1 : |s.val / c| ≤ |v| + |v| / 2 ^ 53 := by
    have := abs_sub_abs_le_abs_sub (s.val / c) v
    linarith
  have hB2 : |v| - |v| / 2 ^ 53 ≤ |s.val / c| := by
    have := abs_sub_abs_le_abs_sub v (s.val / c)
    rw [abs_sub_comm] at this
    linarith
  have hu : |v| / 2 ^ 53 ≤ |v| / 2 := by
    apply div_le_div_of_nonneg_left (le_of_lt ha) (by norm_num) (by norm_num)
  obtain ⟨r, hr, hre⟩ := Float64.round_rel_of (s.val / c) lo hi hlo hhi (by linarith) (by linarith)
  refine ⟨s, r, hs, hr, ?_⟩
  have t := abs_sub_le r.val (s.val / c) v
  have hB3 : |s.val / c| / 2 ^ 53 ≤ (|v| + |v| / 2 ^ 53) / 2 ^ 53 :=
    div_le_div_of_nonneg_right hB1 (by positivity)
  have hfin := round_trip_bound |v| (le_of_lt ha)
  linarith

theorem int32_add_double_lt (c : CInt .i32) (d : ℚ)
    (hd : |d| ≤ 2 ^ (1024 : ℤ) - 2 ^ (971 : ℤ)) :
    |(c.val : ℚ) + d| < 2 ^ (1024 : ℤ) - 2 ^ (970 : ℤ) := by
  obtain ⟨h1, h2⟩ := (inRange_i32_iff _).mp c.inRange
  have hc : |(c.val : ℚ)| ≤ 2147483648 := by
    rw [abs_le]
    constructor
    · exact_mod_cast h1
    · have : (c.val : ℚ) ≤ 2147483647 := by exact_mod_cast h2
      linarith
  have p0 : (2147483648 : ℚ) = 2 ^ (31 : ℤ) := by norm_num
  have p1 : (2 : ℚ) ^ (31 : ℤ) < 2 ^ (970 : ℤ) := two_zpow_lt (by decide)
  have p2 : (2 : ℚ) ^ (971 : ℤ) = 2 * 2 ^ (970 : ℤ) := two_zpow_double (by decide)
  have t := abs_add (c.val : ℚ) d
  rw [p0] at hc
  generalize (2 : ℚ) ^ (31 : ℤ) = a at *
  generalize (2 : ℚ) ^ (970 : ℤ) = b at *
  generalize (2 : ℚ) ^ (971 : ℤ) = e at *
  generalize (2 : ℚ) ^ (1024 : ℤ) = f at *
  linarith

theorem one_le_max_double : (1 : ℚ) ≤ 2 ^ (1024 : ℤ) - 2 ^ (971 : ℤ) := by
  have p1 : (1 : ℚ) = 2 ^ (0 : ℤ) := by norm_num
  have p2 : (2 : ℚ) ^ (0 : ℤ) ≤ 2 ^ (1023 : ℤ) := two_zpow_le (by decide)
  have p3 : (2 : ℚ) ^ (971 : ℤ) ≤ 2 ^ (1023 : ℤ) := two_zpow_le (by decide)
  have p4 : (2 : ℚ) ^ (1024 : ℤ) = 2 * 2 ^ (1023 : ℤ) := two_zpow_double (by decide)
  rw [p1]
  generalize (2 : ℚ) ^ (0 : ℤ) = a at *
  generalize (2 : ℚ) ^ (971 : ℤ) = b at *
  generalize (2 : ℚ) ^ (1023 : ℤ) = e at *
  generalize (2 : ℚ) ^ (1024 : ℤ) = f at *
  linarith

/-! ## Claims -/

/-- C1. Same-type arithmetic on `int32`, `uint32` and `int64` delegates to the
built-in operator: when the right operand of `/` and `%` is not zero and, for
the signed types, the result (and for `%` the quotient) is representable,
`Unit<T>(a) op Unit<T>(b)` is defined and its `get()` is the value of the bare
expression `a op b`; that value is the exact sum, difference, product,
truncated quotient or remainder for a signed type and for `/`, `%`, and the
exact result modulo `2 ^ 32` for `uint32`. -/
theorem same_type_arith_delegates (T : IntTy) (hT : T = .i32 ∨ T = .u32 ∨ T = .i64)
    (op : Op) (a b : CInt T)
    (hdiv : op.divides = true → b.val ≠ 0)
    (hfit : T.signed = true →
      InRange T (op.exact a.val b.val) ∧ (op = .mod → InRange T (Int.tdiv a.val b.val))) :
    ∃ r h, (Unit.mk a).arith op (Unit.mk b) = some r ∧ hostOp op a b = some h ∧
      r.get.val = h.val ∧
      (T.signed = true ∨ op.divides = true → h.val = op.exact a.val b.val) ∧
      (T.signed = false → h.val = op.exact a.val b.val % 2 ^ T.bits) := by
  have hp : promote T = T := by rcases hT with rfl | rfl | rfl <;> rfl
  have hH := hostOp_self_val op a b
  have hU := Unit.arith_val op (Unit.mk a) (Unit.mk b)
  rw [hp] at hH hU
  obtain ⟨v, hv, hvr, hv1, hv2⟩ := evalVal_defined T op a.val b.val a.inRange b.inRange hdiv hfit
  rw [hv] at hH
  rw [show (Unit.mk a).val.val = a.val from rfl, show (Unit.mk b).val.val = b.val from rfl, hv,
    Option.map_some', wrap_of_inRange hvr] at hU
  obtain ⟨h, hh, hhv⟩ := Option.map_eq_some'.mp hH
  obtain ⟨r, hr, hrv⟩ := Option.map_eq_some'.mp hU
  exact ⟨r, h, hr, hh, by rw [hrv, hhv], by rw [hhv]; exact hv1, by rw [hhv]; exact hv2⟩

/-- Instance of C1 at `int32`, `-7 / 2`. -/
theorem same_type_arith_delegates_witness :
    ∃ r h, (Unit.mk (lit .i32 (-7))).arith .div (Unit.mk (lit .i32 2)) = some r ∧
      hostOp .div (lit .i32 (-7)) (lit .i32 2) = some h ∧
      r.get.val = h.val ∧
      (IntTy.i32.signed = true ∨ Op.div.divides = true →
        h.val = Op.div.exact (lit .i32 (-7)).val (lit .i32 2).val) ∧
      (IntTy.i32.signed = false →
        h.val = Op.div.exact (lit .i32 (-7)).val (lit .i32 2).val % 2 ^ IntTy.i32.bits) :=
  same_type_arith_delegates .i32 (Or.inl rfl) .div (lit .i32 (-7)) (lit .i32 2)
    (by decide) (by decide)

/-- C2 fails as stated: for `uint8`, `Unit(200) + Unit(100)` holds 44 while the
bare sum `200 + 100`, computed in `int`, is 300. -/
theorem narrow_sum_not_bare_sum :
    ∃ r h, (Unit.mk (lit .u8 200)).arith .add (Unit.mk (lit .u8 100)) = some r ∧
      hostOp .add (lit .u8 200) (lit .u8 100) = some h ∧
      r.get.val = 44 ∧ h.val = 300 ∧ r.get.val ≠ h.val :=
  ⟨Unit.mk (lit .u8 44), lit .i32 300, by decide, by decide, by decide, by decide, by decide⟩

/-- C2, amended. For `T` narrower than `int` and `op` one of `+ - *`, with the
bare expression `a op b` free of overflow in `int` (which can only fail for a
product of two `uint16` values), `Unit<T>(a) op Unit<T>(b)` is defined and its
`get()` is the bare result converted back to `T`, that is reduced modulo
`2 ^ bits`; it equals the bare result exactly when that result is
representable in `T`. -/
theorem narrow_arith_converts_back (T : IntTy) (hT : T.rank < 3)
    (op : Op) (hop : op.divides = false) (a b : CInt T)
    (hfit : T = .u16 → op = .mul → a.val * b.val ≤ 2147483647) :
    ∃ r h, (Unit.mk a).arith op (Unit.mk b) = some r ∧ hostOp op a b = some h ∧
      h.val = op.exact a.val b.val ∧
      r.get.val = wrap T h.val ∧
      (r.get.val = h.val ↔ InRange T h.val) := by
  have hex := narrow_exact_inRange T hT op hop a.val b.val a.inRange b.inRange hfit
  have hH := hostOp_self_val op a b
  have hU := Unit.arith_val op (Unit.mk a) (Unit.mk b)
  rw [promote_narrow hT] at hH hU
  obtain ⟨v, hv, -, hv1, -⟩ := evalVal_defined .i32 op a.val b.val
    (by have := inRange_promote a.inRange; rwa [promote_narrow hT] at this)
    (by have := inRange_promote b.inRange; rwa [promote_narrow hT] at this)
    (by simp [hop]) (fun _ => ⟨hex, fun hm => by subst hm; simp [Op.divides] at hop⟩)
  have hve : v = op.exact a.val b.val := hv1 (Or.inl rfl)
  rw [hv] at hH
  rw [show (Unit.mk a).val.val = a.val from rfl, show (Unit.mk b).val.val = b.val from rfl, hv,
    Option.map_some'] at hU
  obtain ⟨h, hh, hhv⟩ := Option.map_eq_some'.mp hH
  obtain ⟨r, hr, hrv⟩ := Option.map_eq_some'.mp hU
  refine ⟨r, h, hr, hh, by rw [hhv, hve], by rw [hrv, hhv], ?_⟩
  constructor
  · intro e
    rw [← e]
    exact r.get.inRange
  · intro hin
    rw [hrv, hhv]
    rw [hhv] at hin
    exact wrap_of_inRange hin

/-- Instance of the amended C2 at `uint8`, `200 + 100`. -/
theorem narrow_arith_converts_back_witness :
    ∃ r h, (Unit.mk (lit .u8 200)).arith .add (Unit.mk (lit .u8 100)) = some r ∧
      hostOp .add (lit .u8 200) (lit .u8 100) = some h ∧
      h.val = Op.add.exact (lit .u8 200).val (lit .u8 100).val ∧
      r.get.val = wrap .u8 h.val ∧
      (r.get.val = h.val ↔ InRange .u8 h.val) :=
  narrow_arith_converts_back .u8 (by decide) .add (by decide) (lit .u8 200) (lit .u8 100)
    (by decide)

/-- C3. Cross-type arithmetic is carried out in the common type
`R = decltype(A() op B())`. For integer types: with `ca`, `cb` the operands
converted to `R`, a non-zero right operand for `/` and `%`, and no signed
overflow in `R`, `Unit<A>(a) op Unit<B>(b)` is defined, is a `Unit<R>`, holds
the value of the bare expression `a op b`, and that value is `ca op cb`
computed in `R` (exact for signed `R` and for `/`, `%`; modulo `2 ^ bits` for
unsigned `R`); for `A = int32`, `B = int64` the common type is `int64`. For
`c : int32` and `d : double`: `Unit<int32>(c) + Unit<double>(d)` is a
`Unit<double>` whose value is `double(c) + d`, the `double` sum; for every
finite `d` it is finite and nearest to the exact sum (3 + 0.5 is 3.5, and
`1 + 2^-54` is 1). -/
theorem cross_type_arith_in_common_type (A B : IntTy) (op : Op) (a : CInt A) (b : CInt B)
    (c : CInt .i32) (d : Float64)
    (hdiv : op.divides = true → b.val ≠ 0)
    (hfit : (arithTy A B).signed = true →
      InRange (arithTy A B) (op.exact (wrap (arithTy A B) a.val) (wrap (arithTy A B) b.val)) ∧
      (op = .mod →
        InRange (arithTy A B) (Int.tdiv (wrap (arithTy A B) a.val) (wrap (arithTy A B) b.val))))
    (hd : |d.val| ≤ 2 ^ (1024 : ℤ) - 2 ^ (971 : ℤ)) :
    arithTy .i32 .i64 = .i64 ∧
    (∃ r : Unit (CInt (arithTy A B)), (Unit.mk a).xarith op (Unit.mk b) = some r ∧
      hostOp op a b = some r.get ∧
      ((arithTy A B).signed = true ∨ op.divides = true →
        r.get.val = op.exact (wrap (arithTy A B) a.val) (wrap (arithTy A B) b.val)) ∧
      ((arithTy A B).signed = false →
        r.get.val = op.exact (wrap (arithTy A B) a.val) (wrap (arithTy A B) b.val)
          % 2 ^ (arithTy A B).bits)) ∧
    (Unit.mk c).xaddIntDouble (Unit.mk d) = (Float64.add (Float64.ofInt32 c) d).map Unit.mk ∧
    (∃ s : Unit Float64, (Unit.mk c).xaddIntDouble (Unit.mk d) = some s ∧
      Float64.add (Float64.ofInt32 c) d = some s.get ∧
      |s.get.val - ((c.val : ℚ) + d.val)| ≤ Float64.ulp ((c.val : ℚ) + d.val) / 2) ∧
    ((Unit.mk (lit .i32 3)).xaddIntDouble (Unit.mk (Float64.mk (1 / 2)))).map
      (fun s => s.get.val) = some (7 / 2) ∧
    ((Unit.mk (lit .i32 1)).xaddIntDouble (Unit.mk (Float64.mk (1 / 2 ^ 54)))).map
      (fun s => s.get.val) = some 1 := by
  refine ⟨by decide, ?_, rfl, ?_, ?_, ?_⟩
  · have hH := hostOp_val op a b
    have hU := Unit.xarith_val op (Unit.mk a) (Unit.mk b)
    obtain ⟨v, hv, hvr, hv1, hv2⟩ := evalVal_defined (arithTy A B) op
      (wrap (arithTy A B) a.val) (wrap (arithTy A B) b.val)
      ⟨wrap_lo _ _, wrap_hi _ _⟩ ⟨wrap_lo _ _, wrap_hi _ _⟩
      (fun hd => wrap_ne_zero_of_bits_le _ B (bits_le_arithTy_right A B) b.val b.inRange
        (hdiv hd))
      hfit
    rw [hv] at hH
    rw [show (Unit.mk a).val.val = a.val from rfl, show (Unit.mk b).val.val = b.val from rfl, hv,
      Option.map_some', wrap_of_inRange hvr] at hU
    obtain ⟨h, hh, hhv⟩ := Option.map_eq_some'.mp hH
    obtain ⟨r, hr, hrv⟩ := Option.map_eq_some'.mp hU
    have hrh : h = r.get := CInt.ext_val (by rw [hhv, hrv])
    exact ⟨r, hr, by rw [hh, hrh], by rw [hrv]; exact hv1, by rw [hrv]; exact hv2⟩
  · obtain ⟨s, hs, hse⟩ := Float64.round_some ((c.val : ℚ) + d.val)
      (int32_add_double_lt c d.val hd)
    have hadd : Float64.add (Float64.ofInt32 c) d = some s := hs
    refine ⟨Unit.mk s, ?_, hadd, hse⟩
    unfold Unit.xaddIntDouble
    rw [show (Unit.mk c).val = c from rfl, show (Unit.mk d).val = d from rfl, hadd]
    rfl
  · have h3 : (lit .i32 3).val = 3 := by decide
    have hr := Float64.round_eq_of_pos (3 + 1 / 2) 1 7881299347898368 (by decide) (by decide)
      (by norm_num) (by norm_num) (by norm_num)
    have hv : ((7881299347898368 : ℤ) : ℚ) * 2 ^ ((1 : ℤ) - 52) = 7 / 2 := by norm_num
    rw [hv] at hr
    obtain ⟨s, hs, hsv⟩ := Option.map_eq_some'.mp hr
    have hadd : Float64.add (Float64.ofInt32 (lit .i32 3)) (Float64.mk (1 / 2)) = some s := by
      unfold Float64.add Float64.ofInt32
      rw [h3]
      exact_mod_cast hs
    unfold Unit.xaddIntDouble
    rw [show (Unit.mk (lit .i32 3)).val = lit .i32 3 from rfl,
      show (Unit.mk (Float64.mk (1 / 2))).val = Float64.mk (1 / 2) from rfl, hadd]
    exact congrArg some hsv
  · have h1 : (lit .i32 1).val = 1 := by decide
    have hr := Float64.round_eq_of_pos (1 + 1 / 2 ^ 54) 0 4503599627370496 (by decide)
      (by decide) (by norm_num) (by norm_num) (by norm_num [abs_lt])
    have hv : ((4503599627370496 : ℤ) : ℚ) * 2 ^ ((0 : ℤ) - 52) = 1 := by norm_num
    rw [hv] at hr
    obtain ⟨s, hs, hsv⟩ := Option.map_eq_some'.mp hr
    have hadd : Float64.add (Float64.ofInt32 (lit .i32 1)) (Float64.mk (1 / 2 ^ 54))
        = some s := by
      unfold Float64.add Float64.ofInt32
      rw [h1]
      exact_mod_cast hs
    unfold Unit.xaddIntDouble
    rw [show (Unit.mk (lit .i32 1)).val = lit .i32 1 from rfl,
      show (Unit.mk (Float64.mk (1 / 2 ^ 54))).val = Float64.mk (1 / 2 ^ 54) from rfl, hadd]
    exact congrArg some hsv

/-- Instance of C3 at `int32 + int64`, `-5 + 4294967296`, and at
`int32 + double`, `3 + 0.5`. -/
theorem cross_type_arith_in_common_type_witness :
    (∃ r : Unit (CInt (arithTy .i32 .i64)),
      (Unit.mk (lit .i32 (-5))).xarith .add (Unit.mk (lit .i64 4294967296)) = some r ∧
      hostOp .add (lit .i32 (-5)) (lit .i64 4294967296) = some r.get ∧
      ((arithTy .i32 .i64).signed = true ∨ Op.add.divides = true →
        r.get.val = Op.add.exact (wrap (arithTy .i32 .i64) (lit .i32 (-5)).val)
          (wrap (arithTy .i32 .i64) (lit .i64 4294967296).val)) ∧
      ((arithTy .i32 .i64).signed = false →
        r.get.val = Op.add.exact (wrap (arithTy .i32 .i64) (lit .i32 (-5)).val)
          (wrap (arithTy .i32 .i64) (lit .i64 4294967296).val)
            % 2 ^ (arithTy .i32 .i64).bits)) ∧
    (∃ s : Unit Float64,
      (Unit.mk (lit .i32 3)).xaddIntDouble (Unit.mk (Float64.mk (1 / 2))) = some s ∧
      Float64.add (Float64.ofInt32 (lit .i32 3)) (Float64.mk (1 / 2)) = some s.get ∧
      |s.get.val - (((lit .i32 3).val : ℚ) + (Float64.mk (1 / 2)).val)|
        ≤ Float64.ulp (((lit .i32 3).val : ℚ) + (Float64.mk (1 / 2)).val) / 2) :=
  have h := cross_type_arith_in_common_type .i32 .i64 .add (lit .i32 (-5))
    (lit .i64 4294967296) (lit .i32 3) (Float64.mk (1 / 2)) (by decide) (by decide)
    (le_trans (by norm_num [abs_le]) one_le_max_double)
  ⟨h.2.1, h.2.2.2.1⟩

/-- C4. Same-type comparison compares the stored values directly: for every
integer type `T` and all `a`, `b` of type `T`, each of `== != < > <= >=` on
`Unit<T>(a)`, `Unit<T>(b)` is true exactly when the relation holds between
`a` and `b`. -/
theorem same_type_cmp_direct (T : IntTy) (a b : CInt T) :
    ((Unit.mk a).cmp .eq (Unit.mk b) = true ↔ a.val = b.val) ∧
    ((Unit.mk a).cmp .ne (Unit.mk b) = true ↔ a.val ≠ b.val) ∧
    ((Unit.mk a).cmp .lt (Unit.mk b) = true ↔ a.val < b.val) ∧
    ((Unit.mk a).cmp .gt (Unit.mk b) = true ↔ a.val > b.val) ∧
    ((Unit.mk a).cmp .le (Unit.mk b) = true ↔ a.val ≤ b.val) ∧
    ((Unit.mk a).cmp .ge (Unit.mk b) = true ↔ a.val ≥ b.val) := by
  have ha := promote_inRange_val a
  have hb := promote_inRange_val b
  simp [Unit.cmp, hostRel, CInt.cast, CInt.ofInt, ha, hb, Rel.holds]

/-- C5. Converting `Unit<double>` to `Unit<int32>` discards the fractional
part: for every finite `x` whose integer part (rounded toward zero) fits in
`int32`, the conversion is defined, signals nothing, and holds that integer
part; 3.7 gives 3 and -3.7 gives -3. -/
theorem double_to_int32_truncates (x : Float64) (hfit : InRange .i32 (truncTowardZero x.val)) :
    (∃ r, (Unit.mk x).castFromDouble .i32 = some r ∧ r.get.val = truncTowardZero x.val) ∧
    ((Unit.mk (Float64.mk (mkRat 37 10))).castFromDouble .i32).map (fun r => r.get.val)
      = some 3 ∧
    ((Unit.mk (Float64.mk (mkRat (-37) 10))).castFromDouble .i32).map (fun r => r.get.val)
      = some (-3) := by
  refine ⟨?_, by decide, by decide⟩
  rw [← Float64.trunc_eq] at hfit
  refine ⟨Unit.mk ⟨x.trunc, hfit.1, hfit.2⟩, ?_, Float64.trunc_eq x⟩
  simp [Unit.castFromDouble, Float64.toInt, hfit]

/-- Instance of C5 at 3.7. -/
theorem double_to_int32_truncates_witness :
    InRange .i32 (truncTowardZero (Float64.mk (mkRat 37 10)).val) ∧
    ((∃ r, (Unit.mk (Float64.mk (mkRat 37 10))).castFromDouble .i32 = some r ∧
        r.get.val = truncTowardZero (Float64.mk (mkRat 37 10)).val) ∧
    ((Unit.mk (Float64.mk (mkRat 37 10))).castFromDouble .i32).map (fun r => r.get.val)
      = some 3 ∧
    ((Unit.mk (Float64.mk (mkRat (-37) 10))).castFromDouble .i32).map (fun r => r.get.val)
      = some (-3)) :=
  have h : InRange .i32 (truncTowardZero (Float64.mk (mkRat 37 10)).val) := by
    rw [← Float64.trunc_eq]; decide
  ⟨h, double_to_int32_truncates (Float64.mk (mkRat 37 10)) h⟩

/-- C6. Construction followed by `get` returns the value: for every stored
type and every `v`, `Unit<T>(v).get() == v`. -/
theorem get_after_construct {α : Type} (v : α) : (Unit.mk v).get = v := rfl

/-- C7. `set` overwrites the stored value without any check: after `set(w)`
on `Unit<T>(v)`, `get()` returns `w` whatever `v` was, the object is the one
constructed from `w`, and a second `set(w2)` leaves `get() == w2`. -/
theorem set_overwrites {α : Type} (v v' w w2 : α) :
    ((Unit.mk v).set w).get = w ∧
    (Unit.mk v).set w = (Unit.mk v').set w ∧
    (Unit.mk v).set w = Unit.mk w ∧
    (((Unit.mk v).set w).set w2).get = w2 :=
  ⟨rfl, rfl, rfl, rfl⟩

/-- C8. The default-constructed wrapper holds zero: for every integer type
`T`, `Unit<T>().get()` is 0 and `Unit<T>() == Unit<T>(0)`; likewise for
`double`. -/
theorem default_holds_zero (T : IntTy) :
    (Unit.init : Unit (CInt T)).get.val = 0 ∧
    (Unit.init : Unit (CInt T)).cmp .eq (Unit.mk (lit T 0)) = true ∧
    (Unit.init : Unit Float64).get.val = 0 ∧
    (Unit.init : Unit Float64).cmpDouble .eq (Unit.mk (Float64.mk 0)) = true := by
  refine ⟨by cases T <;> decide, by cases T <;> decide, rfl, ?_⟩
  simp [Unit.cmpDouble, Float64.rel, Unit.init, ValueInit.valueInit]

/-- C9. Conversion round trips are not the identity when the conversion loses
information: `Unit<int32>(300)` through `Unit<int8>` and back holds 44, and
`Unit<double>(3.5)` through `Unit<int32>` and back holds 3. -/
theorem round_trip_not_identity :
    (∃ (T U : IntTy) (w : Unit (CInt T)), ((w.cast U).cast T).get ≠ w.get) ∧
    (((Unit.mk (lit .i32 300)).cast .i8).cast .i32).get.val = 44 ∧
    (Unit.mk (lit .i32 300)).get.val = 300 ∧
    (∃ (w : Unit Float64) (r : Unit (CInt .i32)),
      w.castFromDouble .i32 = some r ∧ r.castToDouble.get ≠ w.get) ∧
    ((Unit.mk (Float64.mk (mkRat 7 2))).castFromDouble .i32).map
      (fun r => r.castToDouble.get.val) = some 3 := by
  refine ⟨⟨.i32, .i8, Unit.mk (lit .i32 300), by decide⟩, by decide, by decide,
    ⟨Unit.mk (Float64.mk (mkRat 7 2)), Unit.mk (lit .i32 3), by decide, ?_⟩, by decide⟩
  intro h
  have h2 : (3 : Int) = (mkRat 7 2).num := congrArg (fun d => d.val.num) h
  revert h2
  decide

/-- C10. The inserter writes the stored value and nothing else: for every
`int n` and every stream, `os << Unit<int>(n)` leaves the stream as `os << n`
does, appending the decimal digits of `n`; on an empty stream `Unit<int>(42)`
produces `"42"`. -/
theorem insert_is_value_repr (os : OStream) (n : CInt .i32) :
    Unit.insert os (Unit.mk n) = os.insertInt n ∧
    (Unit.insert os (Unit.mk n)).buf = os.buf ++ decimal n.val ∧
    (Unit.insert (OStream.mk "") (Unit.mk (lit .i32 42))).buf = "42" ∧
    (Unit.insert (OStream.mk "") (Unit.mk (lit .i32 (-42)))).buf = "-42" :=
  ⟨rfl, rfl, by decide, by decide⟩

/-- C12 fails as stated: in `double` arithmetic `kph(7)` followed by `kph()`
does not return 7 but the `double` just below it, 6.999999999999999. -/
theorem velocity_kph_round_trip_inexact :
    (((Velocity.mk (Unit.mk (Float64.mk 0))).setKph (Float64.mk 7)).bind Velocity.kph).map
      Float64.val = some (7881299347898367 / 1125899906842624) ∧
    (7881299347898367 / 1125899906842624 : ℚ) ≠ 7 := by
  refine ⟨?_, by norm_num⟩
  have hr1 := Float64.round_eq_of_pos (7 / (3623911512156217 / 2251799813685248)) 2
    4897224544159946 (by decide) (by decide) (by norm_num) (by norm_num) (by norm_num [abs_lt])
  have hv1 : ((4897224544159946 : ℤ) : ℚ) * 2 ^ ((2 : ℤ) - 52)
      = 2448612272079973 / 562949953421312 := by norm_num
  rw [hv1] at hr1
  obtain ⟨s, hs, hsv⟩ := Option.map_eq_some'.mp hr1
  have hr2 := Float64.round_eq_of_pos
    (2448612272079973 / 562949953421312 * (3623911512156217 / 2251799813685248)) 2
    7881299347898367 (by decide) (by decide) (by norm_num) (by norm_num) (by norm_num [abs_lt])
  have hv2 : ((7881299347898367 : ℤ) : ℚ) * 2 ^ ((2 : ℤ) - 52)
      = 7881299347898367 / 1125899906842624 := by norm_num
  rw [hv2] at hr2
  have hdiv : Float64.div (Float64.mk 7) Velocity.kphFactor = some s := by
    unfold Float64.div Velocity.kphFactor
    rw [if_neg (by norm_num)]
    exact hs
  unfold Velocity.setKph
  rw [hdiv]
  show (Float64.round (s.val * Velocity.kphFactor.val)).map Float64.val = _
  rw [hsv]
  exact hr2

/-- C12, amended. The velocity example in `double` arithmetic, miles per hour
stored: the factors are the `double` literals `1.60934` and `2.2369362921`;
after `mph(10)` the reader `kph()` returns the `double` 16.0934; after
`kph(16.0934)` the reader `mph()` returns 10; and for every `v` with
`2^-1000 <= |v| <= 2^1000`, `kph(v)` followed by `kph()`, and `mps(v)` followed
by `mps()`, are finite and return `v` up to rounding, within `|v| / 2^51`. -/
theorem velocity_scale_round_trip (u : Velocity Float64) (v : Float64)
    (h1 : 2 ^ (-1000 : ℤ) ≤ |v.val|) (h2 : |v.val| ≤ 2 ^ (1000 : ℤ)) :
    (Float64.round 1.60934).map Float64.val = some Velocity.kphFactor.val ∧
    (Float64.round 2.2369362921).map Float64.val = some Velocity.mpsFactor.val ∧
    (u.setMph (Float64.mk 10)).kph.map Float64.val = (Float64.round 16.0934).map Float64.val ∧
    (u.setMph (Float64.mk 10)).kph.map Float64.val
      = some (4529889390195271 / 281474976710656) ∧
    (u.setKph (Float64.mk (4529889390195271 / 281474976710656))).map (fun w => w.mph.val)
      = some 10 ∧
    (∃ w r, u.setKph v = some w ∧ w.kph = some r ∧ |r.val - v.val| ≤ |v.val| / 2 ^ 51) ∧
    (∃ w r, u.setMps v = some w ∧ w.mps = some r ∧ |r.val - v.val| ≤ |v.val| / 2 ^ 51) := by
  have hk : (Float64.round 1.60934).map Float64.val = some Velocity.kphFactor.val := by
    have hr := Float64.round_eq_of_pos 1.60934 0 7247823024312434 (by decide) (by decide)
      (by norm_num) (by norm_num) (by norm_num [abs_lt])
    rw [hr]
    unfold Velocity.kphFactor
    norm_num
  have hm : (Float64.round 2.2369362921).map Float64.val = some Velocity.mpsFactor.val := by
    have hr := Float64.round_eq_of_pos 2.2369362921 1 5037132725776549 (by decide) (by decide)
      (by norm_num) (by norm_num) (by norm_num [abs_lt])
    rw [hr]
    unfold Velocity.mpsFactor
    norm_num
  have h16 : (Float64.round 16.0934).map Float64.val
      = some (4529889390195271 / 281474976710656) := by
    have hr := Float64.round_eq_of_pos 16.0934 4 4529889390195271 (by decide) (by decide)
      (by norm_num) (by norm_num) (by norm_num [abs_lt])
    rw [hr]
    norm_num
  have h10k : (u.setMph (Float64.mk 10)).kph.map Float64.val
      = some (4529889390195271 / 281474976710656) := by
    have hr := Float64.round_eq_of_pos (10 * (3623911512156217 / 2251799813685248)) 4
      4529889390195271 (by decide) (by decide) (by norm_num) (by norm_num)
      (by norm_num [abs_lt])
    show (Float64.round ((10 : ℚ) * Velocity.kphFactor.val)).map Float64.val = _
    unfold Velocity.kphFactor
    rw [hr]
    norm_num
  have h10 : (u.setKph (Float64.mk (4529889390195271 / 281474976710656))).map
      (fun w => w.mph.val) = some 10 := by
    have hr := Float64.round_eq_of_pos
      (4529889390195271 / 281474976710656 / (3623911512156217 / 2251799813685248)) 3
      5629499534213120 (by decide) (by decide) (by norm_num) (by norm_num)
      (by norm_num [abs_lt])
    have hv : ((5629499534213120 : ℤ) : ℚ) * 2 ^ ((3 : ℤ) - 52) = 10 := by norm_num
    rw [hv] at hr
    obtain ⟨s, hs, hsv⟩ := Option.map_eq_some'.mp hr
    have hdiv : Float64.div (Float64.mk (4529889390195271 / 281474976710656))
        Velocity.kphFactor = some s := by
      unfold Float64.div Velocity.kphFactor
      rw [if_neg (by norm_num)]
      exact hs
    unfold Velocity.setKph
    rw [hdiv]
    exact congrArg some hsv
  have hkc : (1 : ℚ) ≤ Velocity.kphFactor.val ∧ Velocity.kphFactor.val ≤ 4 := by
    unfold Velocity.kphFactor; norm_num
  have hmc : (1 : ℚ) ≤ Velocity.mpsFactor.val ∧ Velocity.mpsFactor.val ≤ 4 := by
    unfold Velocity.mpsFactor; norm_num
  refine ⟨hk, hm, by rw [h10k, h16], h10k, h10, ?_, ?_⟩
  · obtain ⟨s, r, hs, hr, hb⟩ :=
      Float64.div_mul_round_trip Velocity.kphFactor.val v.val hkc.1 hkc.2 h1 h2
    have hdiv : Float64.div v Velocity.kphFactor = some s := by
      unfold Float64.div
      rw [if_neg (by linarith [hkc.1]), hs]
    refine ⟨{ u with val := s }, r, ?_, hr, hb⟩
    unfold Velocity.setKph
    rw [hdiv]
    rfl
  · obtain ⟨s, r, hs, hr, hb⟩ :=
      Float64.mul_div_round_trip Velocity.mpsFactor.val v.val hmc.1 hmc.2 h1 h2
    have hmul : Float64.mul v Velocity.mpsFactor = some s := hs
    have hdiv : Float64.div s Velocity.mpsFactor = some r := by
      unfold Float64.div
      rw [if_neg (by linarith [hmc.1]), hr]
    refine ⟨{ u with val := s }, r, ?_, hdiv, hb⟩
    unfold Velocity.setMps
    rw [hmul]
    rfl

/-- Instance of the amended C12 at `v = 7`. -/
theorem velocity_scale_round_trip_witness :
    ∃ w r, (Velocity.mk (Unit.mk (Float64.mk 0))).setKph (Float64.mk 7) = some w ∧
      w.kph = some r ∧ |r.val - (Float64.mk 7).val| ≤ |(Float64.mk 7).val| / 2 ^ 51 :=
  (velocity_scale_round_trip (Velocity.mk (Unit.mk (Float64.mk 0))) (Float64.mk 7)
    (le_trans (two_zpow_le (by decide : (-1000 : ℤ) ≤ 0)) (by norm_num [abs_le]))
    (le_trans (by norm_num [abs_le]) (two_zpow_le (by decide : (3 : ℤ) ≤ 1000)))).2.2.2.2.2.1

/-- C13 fails as stated: `Unit<int32>(-1) + Unit<uint32>(5)` holds 4, the
mathematical sum of -1 and 5, although the left operand is negative. -/
theorem signed_unsigned_sum_exact_for_negative :
    ((Unit.mk (lit .i32 (-1))).xarith .add (Unit.mk (lit .u32 5))).map (fun r => r.get.val)
      = some ((lit .i32 (-1)).val + (lit .u32 5).val) ∧
    (lit .i32 (-1)).val + (lit .u32 5).val = 4 ∧
    ¬ (0 ≤ (lit .i32 (-1)).val ∧ (lit .i32 (-1)).val + (lit .u32 5).val < 2 ^ 32) := by
  decide

/-- C13, amended. For all `a : int32`, `b : uint32`, `Unit<int32>(a) +
Unit<uint32>(b)` is defined, is a `Unit<uint32>` and holds `(a + b) mod 2^32`
(so `a = -1`, `b = 0` yields 4294967295); it holds the mathematical sum
exactly when `0 <= a + b < 2^32`. -/
theorem int32_plus_uint32_wraps (a : CInt .i32) (b : CInt .u32) :
    arithTy .i32 .u32 = .u32 ∧
    (∃ r, (Unit.mk a).xarith .add (Unit.mk b) = some r ∧
      r.get.val = (a.val + b.val) % 2 ^ 32 ∧
      (r.get.val = a.val + b.val ↔ 0 ≤ a.val + b.val ∧ a.val + b.val < 2 ^ 32)) ∧
    ((Unit.mk (lit .i32 (-1))).xarith .add (Unit.mk (lit .u32 0))).map (fun r => r.get.val)
      = some 4294967295 := by
  refine ⟨by decide, ?_, by decide⟩
  have hU := Unit.xarith_val .add (Unit.mk a) (Unit.mk b)
  have hv : (evalVal (arithTy .i32 .u32) .add (wrap (arithTy .i32 .u32) a.val)
      (wrap (arithTy .i32 .u32) b.val)).map (wrap (arithTy .i32 .u32))
      = some ((a.val + b.val) % 2 ^ 32) := by
    rw [show arithTy .i32 .u32 = .u32 from rfl]
    simp only [evalVal, Op.divides, Op.exact, IntTy.signed, wrap_u32_eq]
    simp
    rw [wrap_u32_eq]
    omega
  rw [show (Unit.mk a).val.val = a.val from rfl, show (Unit.mk b).val.val = b.val from rfl,
    hv] at hU
  obtain ⟨r, hr, hrv⟩ := Option.map_eq_some'.mp hU
  refine ⟨r, hr, hrv, ?_⟩
  rw [hrv]
  norm_num
  omega

/-- C14. Cross-type comparison compares the raw values under the usual
arithmetic conversions: for `a : int32`, `b : int64` every one of
`== != < > <= >=` agrees with the comparison of the integers `a` and `b`; for
`a : int32`, `c : uint32` it is the comparison of `a mod 2^32` with `c`, so
`Unit<int32>(-1) < Unit<uint32>(1)` is false and
`Unit<int32>(-1) == Unit<uint32>(4294967295)` is true. -/
theorem cross_type_cmp_promotes (rel : Rel) (a : CInt .i32) (b : CInt .i64) (c : CInt .u32) :
    (Unit.mk a).xcmp rel (Unit.mk b) = rel.holds a.val b.val ∧
    (Unit.mk a).xcmp rel (Unit.mk c) = rel.holds (a.val % 2 ^ 32) c.val ∧
    (Unit.mk (lit .i32 (-1))).xcmp .lt (Unit.mk (lit .u32 1)) = false ∧
    (Unit.mk (lit .i32 (-1))).xcmp .eq (Unit.mk (lit .u32 4294967295)) = true := by
  refine ⟨?_, ?_, by decide, by decide⟩
  · rw [Unit.xcmp_val, show arithTy .i32 .i64 = .i64 from rfl]
    rw [show (Unit.mk a).val.val = a.val from rfl, show (Unit.mk b).val.val = b.val from rfl,
      wrap_i64_of_i32 a, wrap_of_inRange b.inRange]
  · rw [Unit.xcmp_val, show arithTy .i32 .u32 = .u32 from rfl]
    rw [show (Unit.mk a).val.val = a.val from rfl, show (Unit.mk c).val.val = c.val from rfl,
      wrap_u32_of_u32 c, wrap_u32_eq]
    norm_num

/-- C15. The cross-type templates instantiated at `A = B = T` agree with the
member operators when `T` is `int32`, `uint32` or `int64`: the result type is
`T`, the stored value of every one of `+ - * / %` is the same (and one is
undefined exactly when the other is), and every comparison returns the same
Boolean. For a type `N` narrower than `int` the arithmetic templates return
`Unit<int>`, a different type, holding the bare, un-narrowed result, while the
members narrow it back to `N`; for `int16`, `30000 + 30000` is 60000 through
the template and -5536 through the member. -/
theorem template_at_same_type (T : IntTy) (hT : T = .i32 ∨ T = .u32 ∨ T = .i64)
    (N : IntTy) (hN : N.rank < 3)
    (op : Op) (rel : Rel) (a b : CInt T) (c d : CInt N) :
    arithTy T T = T ∧
    ((Unit.mk a).xarith op (Unit.mk b)).map (fun r => r.get.val)
      = ((Unit.mk a).arith op (Unit.mk b)).map (fun r => r.get.val) ∧
    (Unit.mk a).xcmp rel (Unit.mk b) = (Unit.mk a).cmp rel (Unit.mk b) ∧
    arithTy N N = .i32 ∧ arithTy N N ≠ N ∧
    ((Unit.mk c).xarith op (Unit.mk d)).map (fun r => r.get.val)
      = (hostOp op c d).map CInt.val ∧
    ((Unit.mk c).arith op (Unit.mk d)).map (fun r => r.get.val)
      = (hostOp op c d).map (fun h => wrap N h.val) ∧
    ((Unit.mk (lit .i16 30000)).xarith .add (Unit.mk (lit .i16 30000))).map
      (fun r => r.get.val) = some 60000 ∧
    ((Unit.mk (lit .i16 30000)).arith .add (Unit.mk (lit .i16 30000))).map
      (fun r => r.get.val) = some (-5536) := by
  have hp : promote T = T := by rcases hT with rfl | rfl | rfl <;> rfl
  have hTT : arithTy T T = T := by rw [arithTy_self, hp]
  have hNN : arithTy N N = .i32 := by rw [arithTy_self, promote_narrow hN]
  have hne : arithTy N N ≠ N := by
    rw [hNN]
    intro h
    rw [← h] at hN
    exact absurd hN (by decide)
  refine ⟨hTT, ?_, rfl, hNN, hne, Unit.xarith_eq_hostOp op _ _, Unit.arith_eq_hostOp op _ _,
    by decide, by decide⟩
  rw [Unit.xarith_val, Unit.arith_val, hTT, hp]
  rw [show (Unit.mk a).val.val = a.val from rfl, show (Unit.mk b).val.val = b.val from rfl,
    wrap_of_inRange a.inRange, wrap_of_inRange b.inRange]

/-- Instance of C15 at `uint32`, `4000000000 + 500000000`, and at `uint8`,
`200 + 100`. -/
theorem template_at_same_type_witness :
    arithTy .u32 .u32 = .u32 ∧
    ((Unit.mk (lit .u32 4000000000)).xarith .add (Unit.mk (lit .u32 500000000))).map
        (fun r => r.get.val)
      = ((Unit.mk (lit .u32 4000000000)).arith .add (Unit.mk (lit .u32 500000000))).map
        (fun r => r.get.val) ∧
    (Unit.mk (lit .u32 4000000000)).xcmp .lt (Unit.mk (lit .u32 500000000))
      = (Unit.mk (lit .u32 4000000000)).cmp .lt (Unit.mk (lit .u32 500000000)) ∧
    arithTy .u8 .u8 = .i32 ∧
    ((Unit.mk (lit .u8 200)).xarith .add (Unit.mk (lit .u8 100))).map (fun r => r.get.val)
      = (hostOp .add (lit .u8 200) (lit .u8 100)).map CInt.val :=
  have h := template_at_same_type .u32 (Or.inr (Or.inl rfl)) .u8 (by decide) .add .lt
    (lit .u32 4000000000) (lit .u32 500000000) (lit .u8 200) (lit .u8 100)
  ⟨h.1, h.2.1, h.2.2.1, h.2.2.2.1, h.2.2.2.2.2.1⟩

/-- C17. Widening round-trips exactly: for every `a : int32`, the
`Unit<int64>` converted from `Unit<int32>(a)` holds the integer `a`, and
converting it back gives a wrapper equal to `Unit<int32>(a)`. -/
theorem widening_round_trip (a : CInt .i32) :
    ((Unit.mk a).cast .i64).get.val = a.val ∧
    ((Unit.mk a).cast .i64).cast .i32 = Unit.mk a ∧
    (((Unit.mk a).cast .i64).cast .i32).cmp .eq (Unit.mk a) = true := by
  have h1 : ((Unit.mk a).cast .i64).get.val = a.val := wrap_i64_of_i32 a
  have h2 : ((Unit.mk a).cast .i64).cast .i32 = Unit.mk a := by
    apply congrArg Unit.mk
    apply CInt.ext_val
    show wrap .i32 (wrap .i64 a.val) = a.val
    rw [wrap_i64_of_i32, wrap_of_inRange a.inRange]
  refine ⟨h1, h2, ?_⟩
  rw [h2, Unit.cmp_val]
  simp [Rel.holds]

/-- C18. Cross-type `+` and `*` do not depend on the operand order: for all
integer types `A`, `B` and all `a : A`, `b : B`, `Unit<A>(a) + Unit<B>(b)` and
`Unit<B>(b) + Unit<A>(a)` have the same result type and the same stored value
(and are undefined together), and likewise for `*`. -/
theorem cross_type_add_mul_commute (A B : IntTy) (a : CInt A) (b : CInt B) :
    arithTy A B = arithTy B A ∧
    ((Unit.mk a).xarith .add (Unit.mk b)).map (fun r => r.get.val)
      = ((Unit.mk b).xarith .add (Unit.mk a)).map (fun r => r.get.val) ∧
    ((Unit.mk a).xarith .mul (Unit.mk b)).map (fun r => r.get.val)
      = ((Unit.mk b).xarith .mul (Unit.mk a)).map (fun r => r.get.val) ∧
    ((Unit.mk (lit .i32 (-3))).xarith .mul (Unit.mk (lit .i64 5))).map (fun r => r.get.val)
      = some (-15) ∧
    ((Unit.mk (lit .i64 5)).xarith .mul (Unit.mk (lit .i32 (-3)))).map (fun r => r.get.val)
      = some (-15) := by
  refine ⟨arithTy_comm A B, ?_, ?_, by decide, by decide⟩
  · rw [Unit.xarith_val, Unit.xarith_val, arithTy_comm B A, evalVal_add_comm]
  · rw [Unit.xarith_val, Unit.xarith_val, arithTy_comm B A, evalVal_mul_comm]

/-- C19. Unsigned same-type arithmetic wraps modulo `2^32`, so subtraction is
undone by addition: for all `a`, `b` of type `uint32` the difference, the sum
of the difference and `b`, and the sum `a + b` are all defined,
`(Unit(a) - Unit(b)) + Unit(b) == Unit(a)`, and `(Unit(a) + Unit(b)).get()`
is `(a + b) mod 2^32`. -/
theorem uint32_sub_undone_by_add (a b : CInt .u32) :
    (∃ d s, (Unit.mk a).arith .sub (Unit.mk b) = some d ∧
      d.get.val = (a.val - b.val) % 2 ^ 32 ∧
      d.arith .add (Unit.mk b) = some s ∧
      s.cmp .eq (Unit.mk a) = true) ∧
    (∃ t, (Unit.mk a).arith .add (Unit.mk b) = some t ∧
      t.get.val = (a.val + b.val) % 2 ^ 32) := by
  have hno : IntTy.u32.signed = true → False := by decide
  obtain ⟨d, hd, -, hd2⟩ := Unit.arith_defined .u32 rfl .sub (Unit.mk a) (Unit.mk b)
    (fun h => by simp [Op.divides] at h) (fun h => (hno h).elim)
  obtain ⟨s, hs, -, hs2⟩ := Unit.arith_defined .u32 rfl .add d (Unit.mk b)
    (fun h => by simp [Op.divides] at h) (fun h => (hno h).elim)
  obtain ⟨t, ht, -, ht2⟩ := Unit.arith_defined .u32 rfl .add (Unit.mk a) (Unit.mk b)
    (fun h => by simp [Op.divides] at h) (fun h => (hno h).elim)
  have hd3 := hd2 rfl
  have hs3 := hs2 rfl
  have ht3 := ht2 rfl
  simp only [Op.exact, IntTy.bits, Unit.get] at hd3 hs3 ht3
  refine ⟨⟨d, s, hd, hd3, hs, ?_⟩, ⟨t, ht, ht3⟩⟩
  rw [Unit.cmp_val]
  have ha1 := a.lo
  have ha2 := a.hi
  simp [IntTy.minVal, IntTy.maxVal, IntTy.signed, IntTy.bits] at ha1 ha2
  simp only [Rel.holds, decide_eq_true_eq]
  rw [hs3, hd3]
  norm_num
  omega

/-- C20. The six member comparisons are consistent and order the wrappers of
an integer type totally: exactly one of `x < y`, `x == y`, `x > y` holds;
`x == y` holds exactly for equal wrappers; `!=` is the negation of `==`, `<=`
of `>` and `>=` of `<`; and `<` is transitive. -/
theorem cmp_total_order (T : IntTy) (x y z : Unit (CInt T)) :
    ((x.cmp .lt y = true ∧ x.cmp .eq y = false ∧ x.cmp .gt y = false) ∨
     (x.cmp .lt y = false ∧ x.cmp .eq y = true ∧ x.cmp .gt y = false) ∨
     (x.cmp .lt y = false ∧ x.cmp .eq y = false ∧ x.cmp .gt y = true)) ∧
    (x.cmp .eq y = true ↔ x = y) ∧
    x.cmp .ne y = !(x.cmp .eq y) ∧
    x.cmp .le y = !(x.cmp .gt y) ∧
    x.cmp .ge y = !(x.cmp .lt y) ∧
    (x.cmp .lt y = true → y.cmp .lt z = true → x.cmp .lt z = true) := by
  have hext : x.val.val = y.val.val ↔ x = y := by
    constructor
    · intro h
      cases x; cases y
      exact congrArg Unit.mk (CInt.ext_val h)
    · intro h
      rw [h]
  simp only [Unit.cmp_val, Rel.holds, ← hext]
  simp
  refine ⟨?_, decide_le_eq_not_lt _ _, decide_le_eq_not_lt _ _, ?_⟩
  · omega
  · omega

/-- Instance of C20 at `int32` with 1, 2, 3: from `1 < 2` and `2 < 3` the
wrappers satisfy `1 < 3`. -/
theorem cmp_total_order_witness :
    (Unit.mk (lit .i32 1)).cmp .lt (Unit.mk (lit .i32 3)) = true :=
  (cmp_total_order .i32 (Unit.mk (lit .i32 1)) (Unit.mk (lit .i32 2))
    (Unit.mk (lit .i32 3))).2.2.2.2.2 (by decide) (by decide)

/-- C16. Division and remainder on `Unit<int32>` satisfy the truncated-division
identity: for all `a` and all `b != 0` with `(a, b) != (INT32_MIN, -1)`, the
quotient, its product with `Unit(b)`, the remainder and their sum are all
defined, `((Unit(a) / Unit(b)) * Unit(b) + (Unit(a) % Unit(b))) == Unit(a)`,
the remainder is zero or has the sign of `a`, and its magnitude is less than
`|b|`. -/
theorem div_mod_identity (a b : CInt .i32) (hb : b.val ≠ 0)
    (hov : ¬ (a.val = -2147483648 ∧ b.val = -1)) :
    ∃ q p r s, (Unit.mk a).arith .div (Unit.mk b) = some q ∧
      q.arith .mul (Unit.mk b) = some p ∧
      (Unit.mk a).arith .mod (Unit.mk b) = some r ∧
      p.arith .add r = some s ∧
      s.cmp .eq (Unit.mk a) = true ∧
      (0 < r.get.val → 0 < a.val) ∧
      (r.get.val < 0 → a.val < 0) ∧
      |r.get.val| < |b.val| := by
  obtain ⟨ha1, ha2⟩ := (inRange_i32_iff _).mp a.inRange
  obtain ⟨hq1, hq2⟩ := tdiv_inRange_i32 a.val b.val ha1 ha2 hb hov
  obtain ⟨hr1, hr2, hr3⟩ := tmod_sign_bounds a.val b.val hb
  have hid := Int.tdiv_add_tmod a.val b.val
  have hqr : InRange .i32 (Int.tdiv a.val b.val) := (inRange_i32_iff _).mpr ⟨hq1, hq2⟩
  have hrr : InRange .i32 (Int.tmod a.val b.val) := by
    rw [inRange_i32_iff]
    rcases le_total 0 a.val with h | h
    · have := hr1 h; omega
    · have := hr2 h; omega
  obtain ⟨q, hq, hqv, -⟩ := Unit.arith_defined .i32 rfl .div (Unit.mk a) (Unit.mk b)
    (fun _ => hb) (fun _ => ⟨hqr, fun h => by cases h⟩)
  obtain ⟨r, hr, hrv, -⟩ := Unit.arith_defined .i32 rfl .mod (Unit.mk a) (Unit.mk b)
    (fun _ => hb) (fun _ => ⟨hrr, fun _ => hqr⟩)
  have hqv1 : q.val.val = Int.tdiv a.val b.val := hqv (Or.inl rfl)
  have hrv1 : r.val.val = Int.tmod a.val b.val := hrv (Or.inl rfl)
  have hpe : q.val.val * b.val = a.val - Int.tmod a.val b.val := by
    rw [hqv1, mul_comm]; omega
  have hpr : InRange .i32 (q.val.val * b.val) := by
    rw [hpe, inRange_i32_iff]
    rcases le_total 0 a.val with h | h
    · have := hr1 h; omega
    · have := hr2 h; omega
  obtain ⟨p, hp, hpv, -⟩ := Unit.arith_defined .i32 rfl .mul q (Unit.mk b)
    (fun h => by simp [Op.divides] at h) (fun _ => ⟨hpr, fun h => by cases h⟩)
  have hpv1 : p.val.val = q.val.val * b.val := hpv (Or.inl rfl)
  have hse : p.val.val + r.val.val = a.val := by rw [hpv1, hpe, hrv1]; omega
  obtain ⟨s, hs, hsv, -⟩ := Unit.arith_defined .i32 rfl .add p r
    (fun h => by simp [Op.divides] at h)
    (fun _ => ⟨by show InRange .i32 (p.val.val + r.val.val); rw [hse]; exact a.inRange,
      fun h => by cases h⟩)
  have hsv1 : s.val.val = p.val.val + r.val.val := hsv (Or.inl rfl)
  refine ⟨q, p, r, s, hq, hp, hr, hs, ?_, ?_, ?_, ?_⟩
  · rw [Unit.cmp_val]
    simp only [Rel.holds, decide_eq_true_eq]
    rw [hsv1, hse]
  · intro h
    have h' : 0 < Int.tmod a.val b.val := by rw [← hrv1]; exact h
    rcases le_total 0 a.val with h0 | h0
    · have := hr1 h0; omega
    · have := hr2 h0; omega
  · intro h
    have h' : Int.tmod a.val b.val < 0 := by rw [← hrv1]; exact h
    rcases le_total 0 a.val with h0 | h0
    · have := hr1 h0; omega
    · have := hr2 h0; omega
  · show |r.val.val| < |b.val|
    rw [hrv1]
    exact hr3

/-- Instance of C16 at `-7` and `2`: quotient -3, remainder -1. -/
theorem div_mod_identity_witness :
    ∃ q p r s, (Unit.mk (lit .i32 (-7))).arith .div (Unit.mk (lit .i32 2)) = some q ∧
      q.arith .mul (Unit.mk (lit .i32 2)) = some p ∧
      (Unit.mk (lit .i32 (-7))).arith .mod (Unit.mk (lit .i32 2)) = some r ∧
      p.arith .add r = some s ∧
      s.cmp .eq (Unit.mk (lit .i32 (-7))) = true ∧
      (0 < r.get.val → 0 < (lit .i32 (-7)).val) ∧
      (r.get.val < 0 → (lit .i32 (-7)).val < 0) ∧
      |r.get.val| < |(lit .i32 2).val| :=
  div_mod_identity (lit .i32 (-7)) (lit .i32 2) (by decide) (by decide)

end Units
